import Mathlib

/-!
Verification development for the difftar repository (npm tarball differ).

The JavaScript source is shallowly embedded: JS strings are modelled as Lean
strings (sequences of Unicode scalar values, which are in bijection with
well-formed UTF-16 JS strings), byte buffers (Uint8Array) as lists of
naturals, JS Map objects as insertion-ordered association lists, and
fallible code as Except values.  Behaviour that depends on UTF-16 code
units (the default Array.prototype.sort comparator) is modelled by
explicitly computing code units from scalar values.
-/

namespace Difftar

/-- Byte buffers (JS Uint8Array contents) as lists of naturals. -/
abbrev Bytes := List Nat

/-- ASCII lower-casing of a character, as performed by JS toLowerCase on
ASCII input (non-ASCII characters that the source ever lowercases are
file extensions, which are ASCII in all relevant inputs). -/
def lowerChar (c : Char) : Char :=
  if 65 ≤ c.toNat && c.toNat ≤ 90 then Char.ofNat (c.toNat + 32) else c

/-- Membership of a character in the JS regex whitespace class
(the set matched by the backslash-s escape, ECMA-262 WhiteSpace plus
LineTerminator). -/
def isJsSpace (c : Char) : Bool :=
  [0x20, 0x09, 0x0A, 0x0B, 0x0C, 0x0D, 0xA0, 0x1680, 0x2028, 0x2029,
    0x202F, 0x205F, 0x3000, 0xFEFF].contains c.toNat
  || (0x2000 ≤ c.toNat && c.toNat ≤ 0x200A)

/-- ASCII letter test. -/
def isAsciiLetter (c : Char) : Bool :=
  (97 ≤ c.toNat && c.toNat ≤ 122) || (65 ≤ c.toNat && c.toNat ≤ 90)

/-- ASCII digit test. -/
def isDigitCh (c : Char) : Bool :=
  48 ≤ c.toNat && c.toNat ≤ 57

/-- The character class [A-Za-z0-9+/=_-] used by several credential
patterns in src/errors.js. -/
def isTokenChar (c : Char) : Bool :=
  isAsciiLetter c || isDigitCh c || ['+', '/', '=', '_', '-'].contains c

/-- The character class [A-Za-z0-9._-] of the standalone Bearer-token
pattern in src/errors.js. -/
def isBearerChar (c : Char) : Bool :=
  isAsciiLetter c || isDigitCh c || ['.', '_', '-'].contains c

/-- The character class [A-Za-z0-9+/=] of the generic credential-assignment
pattern in src/errors.js. -/
def isCred64Char (c : Char) : Bool :=
  isAsciiLetter c || isDigitCh c || ['+', '/', '='].contains c

/-- Quote characters accepted by the optional quote positions of the AWS
and generic credential patterns. -/
def isQuoteCh (c : Char) : Bool :=
  c = '\x27' || c = '"'

/-- Case-insensitive literal matcher: consume the literal (compared via
ASCII lower-casing, as the /i regex flag does on these ASCII literals) and
return the rest of the input, or fail. -/
def matchLitCI : List Char → List Char → Option (List Char)
  | [], s => some s
  | _ :: _, [] => none
  | l :: ls, c :: cs => if lowerChar c == lowerChar l then matchLitCI ls cs else none

/-- Split off the maximal prefix of characters satisfying p (the
deterministic reading of a greedy character-class repetition whose class is
disjoint from what follows). -/
def munch (p : Char → Bool) : List Char → List Char × List Char
  | [] => ([], [])
  | c :: cs =>
    if p c then
      let (a, r) := munch p cs
      (c :: a, r)
    else ([], c :: cs)

/-- Greedy one-or-more repetition of a character class: the maximal
nonempty run, returning the rest. -/
def matchPlusRest (p : Char → Bool) (s : List Char) : Option (List Char) :=
  let (a, r) := munch p s
  if a.isEmpty then none else some r

/-- Greedy bounded-below repetition of a character class, as in a regex
interval quantifier with no upper bound. -/
def matchAtLeast (p : Char → Bool) (n : Nat) (s : List Char) : Option (List Char) :=
  let (a, r) := munch p s
  if n ≤ a.length then some r else none

/-- Consume exactly one character satisfying p. -/
def matchOne (p : Char → Bool) : List Char → Option (List Char)
  | [] => none
  | c :: cs => if p c then some cs else none

/-- Optionally consume one character satisfying p (greedy ? quantifier on a
class disjoint from its continuation). -/
def matchOpt (p : Char → Bool) : List Char → List Char
  | [] => []
  | c :: cs => if p c then cs else c :: cs

/-- Pattern 1 of CREDENTIAL_PATTERNS in src/errors.js: an Authorization
header value, Authorization: then optional whitespace, Basic or Bearer,
whitespace, and a nonempty token of [A-Za-z0-9+/=_-]. -/
def p1Rest (s : List Char) : Option (List Char) := do
  let s1 ← matchLitCI ("authorization:".data) s
  let s2 := (munch isJsSpace s1).2
  let s3 ← (matchLitCI ("basic".data) s2).orElse (fun _ => matchLitCI ("bearer".data) s2)
  let s4 ← matchPlusRest isJsSpace s3
  matchPlusRest isTokenChar s4

/-- The key alternation of pattern 2: access-key-id or secret-access-key
with optional underscore or hyphen separators. -/
def p2KeyRest (s : List Char) : Option (List Char) :=
  (do
    let a1 ← matchLitCI ("access".data) s
    let a2 := matchOpt (fun c => c = '_' || c = '-') a1
    let a3 ← matchLitCI ("key".data) a2
    let a4 := matchOpt (fun c => c = '_' || c = '-') a3
    matchLitCI ("id".data) a4).orElse (fun _ => do
    let b1 ← matchLitCI ("secret".data) s
    let b2 := matchOpt (fun c => c = '_' || c = '-') b1
    let b3 ← matchLitCI ("access".data) b2
    let b4 := matchOpt (fun c => c = '_' || c = '-') b3
    matchLitCI ("key".data) b4)

/-- Pattern 2 of CREDENTIAL_PATTERNS: an AWS credential assignment. -/
def p2Rest (s : List Char) : Option (List Char) := do
  let s1 ← matchLitCI ("aws".data) s
  let s2 := matchOpt (fun c => c = '_' || c = '-') s1
  let s3 ← p2KeyRest s2
  let s4 := (munch isJsSpace s3).2
  let s5 ← matchOne (fun c => c = ':' || c = '=') s4
  let s6 := (munch isJsSpace s5).2
  let s7 := matchOpt isQuoteCh s6
  let s8 ← matchPlusRest isTokenChar s7
  some (matchOpt isQuoteCh s8)

/-- Pattern 3 of CREDENTIAL_PATTERNS: a token= query parameter with a
value of at least 8 token characters. -/
def p3Rest (s : List Char) : Option (List Char) := do
  let s1 ← matchLitCI ("token=".data) s
  matchAtLeast isTokenChar 8 s1

/-- Pattern 4 of CREDENTIAL_PATTERNS: URL userinfo, colon slash slash,
a nonempty run without colon, a colon, a nonempty run without at-sign,
and an at-sign. -/
def p4Rest (s : List Char) : Option (List Char) := do
  let s1 ← matchLitCI ("://".data) s
  let s2 ← matchPlusRest (fun c => c ≠ ':') s1
  let s3 ← matchOne (fun c => c = ':') s2
  let s4 ← matchPlusRest (fun c => c ≠ '@') s3
  matchOne (fun c => c = '@') s4

/-- Pattern 5 of CREDENTIAL_PATTERNS: a standalone Bearer token. -/
def p5Rest (s : List Char) : Option (List Char) := do
  let s1 ← matchLitCI ("bearer".data) s
  let s2 ← matchPlusRest isJsSpace s1
  matchPlusRest isBearerChar s2

/-- Pattern 6 of CREDENTIAL_PATTERNS: a generic credential assignment with
a base64-like value of at least 20 characters. -/
def p6Rest (s : List Char) : Option (List Char) := do
  let s1 ← matchLitCI ("credential".data) s
  let s2 := matchOpt (fun c => lowerChar c = 's') s1
  let s3 := (munch isJsSpace s2).2
  let s4 ← matchOne (fun c => c = ':' || c = '=') s3
  let s5 := (munch isJsSpace s4).2
  let s6 := matchOpt isQuoteCh s5
  let s7 ← matchAtLeast isCred64Char 20 s6
  some (matchOpt isQuoteCh s7)

/-- The replacement callback of sanitizeCredentials: find the first colon
or equals sign of the match; when one exists before the last character,
keep the prefix through it and append a space and the redaction marker,
otherwise replace the whole match. -/
def redactMatch (m : List Char) : List Char :=
  let c? := m.findIdx? (fun c => c = ':')
  let e? := m.findIdx? (fun c => c = '=')
  let sep? : Option Nat :=
    match c?, e? with
    | some a, some b => some (min a b)
    | some a, none => some a
    | none, some b => some b
    | none, none => none
  match sep? with
  | some i =>
    if i < m.length - 1 then m.take (i + 1) ++ (" [REDACTED]".data)
    else "[REDACTED]".data
  | none => "[REDACTED]".data

/-- Global regex replacement, fuel-indexed for structural recursion (the
fuel is initialised to the input length, which suffices because every step
shortens the input; the fuel-exhausted arm is unreachable then): scan left
to right, replace each leftmost non-overlapping match and continue after
it, as String.prototype.replace with a global regex does.  Every pattern
here consumes at least one character; the length guard only protects the
scan from a hypothetical empty match. -/
def replacePatAux (pat : List Char → Option (List Char)) (repl : List Char → List Char) :
    Nat → List Char → List Char
  | _, [] => []
  | 0, s => s
  | fuel + 1, c :: cs =>
    match pat (c :: cs) with
    | some rest =>
      if rest.length < cs.length + 1 then
        repl ((c :: cs).take (cs.length + 1 - rest.length)) ++ replacePatAux pat repl fuel rest
      else c :: replacePatAux pat repl fuel cs
    | none => c :: replacePatAux pat repl fuel cs

/-- Global regex replacement over a character list. -/
def replacePat (pat : List Char → Option (List Char)) (repl : List Char → List Char)
    (s : List Char) : List Char :=
  replacePatAux pat repl s.length s

/-- The ordered CREDENTIAL_PATTERNS list of src/errors.js. -/
def credentialPatterns : List (List Char → Option (List Char)) :=
  [p1Rest, p2Rest, p3Rest, p4Rest, p5Rest, p6Rest]

/-- sanitizeCredentials from src/errors.js (string case): apply each
credential pattern globally with the redaction callback, then the final
URL-userinfo post-pass with the fixed replacement string. -/
def sanitizeCredentials (s : String) : String :=
  let afterLoop := credentialPatterns.foldl (fun acc pat => replacePat pat redactMatch acc) s.data
  ⟨replacePat p4Rest (fun _ => "://[REDACTED]:[REDACTED]@".data) afterLoop⟩

/-- Error phases of the DiffError taxonomy in src/errors.js. -/
inductive ErrorPhase
  | FETCH
  | DECOMPRESS
  | TAR
  | DIFF
  | AUTH
  | SIZE
deriving DecidableEq, Repr

/-- HTTP_STATUS_MAP from src/errors.js. -/
def HTTP_STATUS_MAP : ErrorPhase → Nat
  | .AUTH => 401
  | .SIZE => 413
  | .FETCH => 502
  | .DECOMPRESS => 422
  | .TAR => 422
  | .DIFF => 500

/-- A DiffError value: phase, sanitized message, and the HTTP status
derived from the phase (the cause field carries no information used by any
property below). -/
structure DiffError where
  phase : ErrorPhase
  message : String
  status : Nat
deriving DecidableEq, Repr

/-- The DiffError constructor from src/errors.js: sanitizes the message
and derives the status from the phase. -/
def mkDiffError (phase : ErrorPhase) (message : String) : DiffError :=
  { phase := phase, message := sanitizeCredentials message, status := HTTP_STATUS_MAP phase }

/-- Decimal digit character for a value below ten. -/
def digitChar : Nat → Char
  | 0 => '0'
  | 1 => '1'
  | 2 => '2'
  | 3 => '3'
  | 4 => '4'
  | 5 => '5'
  | 6 => '6'
  | 7 => '7'
  | 8 => '8'
  | _ => '9'

/-- Decimal digits of a natural number, most significant first, fuel-indexed
(fuel n + 1 always suffices since the value shrinks by a factor of ten each
step). -/
def natToCharsAux : Nat → Nat → List Char → List Char
  | 0, _, acc => acc
  | fuel + 1, n, acc =>
    if n < 10 then digitChar n :: acc
    else natToCharsAux fuel (n / 10) (digitChar (n % 10) :: acc)

/-- Decimal rendering of a natural number, as JS template interpolation of
a nonnegative integer. -/
def natToStr (n : Nat) : String :=
  ⟨natToCharsAux (n + 1) n []⟩

/-- Decimal rendering of an integer. -/
def intToStr (n : Int) : String :=
  if n < 0 then "-" ++ natToStr n.natAbs else natToStr n.toNat

/-- Rendering of the rational p / q to one decimal place with rounding to
nearest (models Number.prototype.toFixed(1) on the exact quotient; the
source computes the quotient in binary floating point, which can differ
from exact rounding only in the final digit at representation boundaries,
a difference no property below depends on). -/
def toFixed1 (p q : Nat) : String :=
  let r10 := (p * 10 + q / 2) / q
  natToStr (r10 / 10) ++ "." ++ natToStr (r10 % 10)

/-- formatBytes from src/fetch.js. -/
def formatBytes (bytes : Int) : String :=
  if bytes < 1024 then intToStr bytes ++ " B"
  else if bytes < 1024 * 1024 then toFixed1 bytes.toNat 1024 ++ " KB"
  else toFixed1 bytes.toNat (1024 * 1024) ++ " MB"

/-- MAX_TARBALL_SIZE from src/fetch.js: 20 MiB. -/
def MAX_TARBALL_SIZE : Int := 20 * 1024 * 1024

/-- Numeric value of a maximal digit run, or none when the run is empty
(the NaN case of parseInt). -/
def digitsVal (l : List Char) : Option Nat :=
  let (ds, _) := munch isDigitCh l
  if ds.isEmpty then none
  else some (ds.foldl (fun a c => a * 10 + (c.toNat - 48)) 0)

/-- JS parseInt with radix 10: skip leading whitespace, accept an optional
sign, read a maximal digit run and ignore the rest; none models NaN. -/
def jsParseInt (s : String) : Option Int :=
  let t := (munch isJsSpace s.data).2
  match t with
  | '-' :: rest => (digitsVal rest).map (fun n => -(n : Int))
  | '+' :: rest => (digitsVal rest).map (fun n => (n : Int))
  | _ => (digitsVal t).map (fun n => (n : Int))

/-- Case-insensitive header lookup, as Headers.prototype.get. -/
def jsHeadersGet (hs : List (String × String)) (name : String) : Option String :=
  (hs.find? (fun kv => kv.1.data.map lowerChar == name.data.map lowerChar)).map (fun kv => kv.2)

/-- Case-insensitive header update, as Headers.prototype.set: replace the
value of an existing entry, else append. -/
def jsHeadersSet (hs : List (String × String)) (name value : String) : List (String × String) :=
  if (hs.find? (fun kv => kv.1.data.map lowerChar == name.data.map lowerChar)).isSome then
    hs.map (fun kv =>
      if kv.1.data.map lowerChar == name.data.map lowerChar then (kv.1, value) else kv)
  else hs ++ [(name, value)]

/-- An HTTP response as fetchUrl observes it: status line, headers, and a
body that is either absent (null) or a sequence of chunks not yet read. -/
structure JsResponse where
  status : Nat
  statusText : String
  headers : List (String × String)
  body : Option (List Bytes)
deriving DecidableEq, Repr

/-- Response.ok per the fetch specification: status in the 2xx range. -/
def responseOk (r : JsResponse) : Bool :=
  200 ≤ r.status && r.status ≤ 299

/-- The JS value of the size variable in fetchUrl: null when the
Content-Length header is absent or empty (falsy), NaN when it does not
parse, else its parseInt value. -/
inductive SizeVal
  | null
  | nan
  | num (n : Int)
deriving DecidableEq, Repr

/-- Declared size read from a response, as fetchUrl computes it. -/
def contentLengthSize (r : JsResponse) : SizeVal :=
  match jsHeadersGet r.headers "Content-Length" with
  | none => .null
  | some s =>
    if s = "" then .null
    else
      match jsParseInt s with
      | none => .nan
      | some n => .num n

/-- Result of a successful acquisition: the byte stream and the declared
size. -/
structure FetchResult where
  stream : List Bytes
  size : SizeVal
deriving DecidableEq, Repr

deriving instance DecidableEq for Except

/-- fetchUrl from src/fetch.js, modelled from the point where the fetch
call has produced a response (a transport exception before that point is
wrapped as a FETCH error outside this model): non-2xx statuses map to AUTH
or FETCH errors, a declared size strictly above MAX_TARBALL_SIZE maps to a
SIZE error raised before the body is touched, a null body to a FETCH
error, and otherwise the body stream is returned unconsumed. -/
def fetchUrl (url : String) (r : JsResponse) : Except DiffError FetchResult :=
  if ¬ responseOk r then
    if r.status = 401 || r.status = 403 then
      Except.error (mkDiffError .AUTH
        ("Authentication failed: " ++ natToStr r.status ++ " " ++ r.statusText))
    else
      Except.error (mkDiffError .FETCH
        ("HTTP " ++ natToStr r.status ++ " " ++ r.statusText ++ " for " ++ url))
  else
    let size := contentLengthSize r
    match size with
    | .num n =>
      if MAX_TARBALL_SIZE < n then
        Except.error (mkDiffError .SIZE
          ("Tarball size " ++ formatBytes n ++ " exceeds limit of "
            ++ formatBytes MAX_TARBALL_SIZE))
      else
        match r.body with
        | none => Except.error (mkDiffError .FETCH "Response has no body")
        | some chunks => Except.ok { stream := chunks, size := size }
    | _ =>
      match r.body with
      | none => Except.error (mkDiffError .FETCH "Response has no body")
      | some chunks => Except.ok { stream := chunks, size := size }

/-- The apostrophe character, used by error-message templates. -/
def apos : String :=
  ⟨[Char.ofNat 39]⟩

/-- applyAuth from src/fetch.js, on the headers association list.  The
auth argument is the JS auth value (none models undefined); with none,
the tag none or an empty tag the headers are returned untouched.  A
missing or empty credential for any remaining tag raises AUTH before the
tag is examined; basic and bearer set the Authorization header; any other
tag raises AUTH with the unknown-auth-type message. -/
def applyAuth (headers : List (String × String)) (auth : Option String)
    (credential : Option String) : Except DiffError (List (String × String)) :=
  if auth = some "none" || auth = none || auth = some "" then
    Except.ok headers
  else
    let a := auth.getD ""
    let credOk := match credential with
      | some c => c != ""
      | none => false
    if credOk then
      match a with
      | "basic" =>
        Except.ok (jsHeadersSet headers "Authorization" ("Basic " ++ credential.getD ""))
      | "bearer" =>
        Except.ok (jsHeadersSet headers "Authorization" ("Bearer " ++ credential.getD ""))
      | _ => Except.error (mkDiffError .AUTH ("Unknown auth type: " ++ a))
    else
      Except.error (mkDiffError .AUTH
        ("Auth type " ++ apos ++ a ++ apos ++ " requires a credential"))

/-- Substring test on character lists (needle occurs contiguously). -/
def containsSeq (needle : List Char) : List Char → Bool
  | [] => needle.isEmpty
  | c :: cs => needle.isPrefixOf (c :: cs) || containsSeq needle cs

/-- Substring test on strings, as String.prototype.includes. -/
def strIncludes (s pat : String) : Bool :=
  containsSeq pat.data s.data

/-- An adjacent character pair (case-insensitively) able to begin one of
the six credential patterns: au(thorization), aw(s), to(ken), the colon
and slash of a URL userinfo, be(arer), cr(edential). -/
def badPair (x y : Char) : Bool :=
  [('a', 'u'), ('a', 'w'), ('t', 'o'), (':', '/'), ('b', 'e'), ('c', 'r')].contains
    (lowerChar x, lowerChar y)

/-- A character list is trigger-free when no adjacent pair can begin a
credential pattern; sanitizeCredentials is the identity on such lists. -/
def trigFree : List Char → Bool
  | x :: y :: rest => !badPair x y && trigFree (y :: rest)
  | _ => true

theorem matchLitCI_pair {l1 l2 : Char} {ls s r : List Char}
    (h : matchLitCI (l1 :: l2 :: ls) s = some r) :
    ∃ x y rest, s = x :: y :: rest ∧ lowerChar x = lowerChar l1 ∧ lowerChar y = lowerChar l2 := by
  match s with
  | [] => simp [matchLitCI] at h
  | [x] =>
    unfold matchLitCI at h
    split at h
    · unfold matchLitCI at h
      simp at h
    · simp at h
  | x :: y :: rest =>
    rw [matchLitCI] at h
    split at h
    case isTrue h1 =>
      rw [matchLitCI] at h
      split at h
      case isTrue h2 => exact ⟨x, y, rest, rfl, by simpa using h1, by simpa using h2⟩
      case isFalse => simp at h
    case isFalse => simp at h

theorem p1Rest_trigger {t r : List Char} (h : p1Rest t = some r) :
    ∃ x y rest, t = x :: y :: rest ∧ lowerChar x = 'a' ∧ lowerChar y = 'u' := by
  unfold p1Rest at h
  cases hm : matchLitCI ("authorization:".data) t with
  | none => rw [hm] at h; simp at h
  | some s1 =>
    have hm2 : matchLitCI ('a' :: 'u' :: ("thorization:".data)) t = some s1 := hm
    obtain ⟨x, y, rest, ht, hx, hy⟩ := matchLitCI_pair hm2
    exact ⟨x, y, rest, ht, hx.trans (by decide), hy.trans (by decide)⟩

theorem p2Rest_trigger {t r : List Char} (h : p2Rest t = some r) :
    ∃ x y rest, t = x :: y :: rest ∧ lowerChar x = 'a' ∧ lowerChar y = 'w' := by
  unfold p2Rest at h
  cases hm : matchLitCI ("aws".data) t with
  | none => rw [hm] at h; simp at h
  | some s1 =>
    have hm2 : matchLitCI ('a' :: 'w' :: ("s".data)) t = some s1 := hm
    obtain ⟨x, y, rest, ht, hx, hy⟩ := matchLitCI_pair hm2
    exact ⟨x, y, rest, ht, hx.trans (by decide), hy.trans (by decide)⟩

theorem p3Rest_trigger {t r : List Char} (h : p3Rest t = some r) :
    ∃ x y rest, t = x :: y :: rest ∧ lowerChar x = 't' ∧ lowerChar y = 'o' := by
  unfold p3Rest at h
  cases hm : matchLitCI ("token=".data) t with
  | none => rw [hm] at h; simp at h
  | some s1 =>
    have hm2 : matchLitCI ('t' :: 'o' :: ("ken=".data)) t = some s1 := hm
    obtain ⟨x, y, rest, ht, hx, hy⟩ := matchLitCI_pair hm2
    exact ⟨x, y, rest, ht, hx.trans (by decide), hy.trans (by decide)⟩

theorem p4Rest_trigger {t r : List Char} (h : p4Rest t = some r) :
    ∃ x y rest, t = x :: y :: rest ∧ lowerChar x = ':' ∧ lowerChar y = '/' := by
  unfold p4Rest at h
  cases hm : matchLitCI ("://".data) t with
  | none => rw [hm] at h; simp at h
  | some s1 =>
    have hm2 : matchLitCI (':' :: '/' :: ("/".data)) t = some s1 := hm
    obtain ⟨x, y, rest, ht, hx, hy⟩ := matchLitCI_pair hm2
    exact ⟨x, y, rest, ht, hx.trans (by decide), hy.trans (by decide)⟩

theorem p5Rest_trigger {t r : List Char} (h : p5Rest t = some r) :
    ∃ x y rest, t = x :: y :: rest ∧ lowerChar x = 'b' ∧ lowerChar y = 'e' := by
  unfold p5Rest at h
  cases hm : matchLitCI ("bearer".data) t with
  | none => rw [hm] at h; simp at h
  | some s1 =>
    have hm2 : matchLitCI ('b' :: 'e' :: ("arer".data)) t = some s1 := hm
    obtain ⟨x, y, rest, ht, hx, hy⟩ := matchLitCI_pair hm2
    exact ⟨x, y, rest, ht, hx.trans (by decide), hy.trans (by decide)⟩

theorem p6Rest_trigger {t r : List Char} (h : p6Rest t = some r) :
    ∃ x y rest, t = x :: y :: rest ∧ lowerChar x = 'c' ∧ lowerChar y = 'r' := by
  unfold p6Rest at h
  cases hm : matchLitCI ("credential".data) t with
  | none => rw [hm] at h; simp at h
  | some s1 =>
    have hm2 : matchLitCI ('c' :: 'r' :: ("edential".data)) t = some s1 := hm
    obtain ⟨x, y, rest, ht, hx, hy⟩ := matchLitCI_pair hm2
    exact ⟨x, y, rest, ht, hx.trans (by decide), hy.trans (by decide)⟩

theorem trigFree_adj : ∀ {s : List Char} {x y : Char} {rest : List Char},
    trigFree s = true → (x :: y :: rest) <:+ s → badPair x y = false := by
  intro s
  induction s with
  | nil =>
    intro x y rest _ hsuf
    exact absurd hsuf.length_le (by simp)
  | cons c cs ih =>
    intro x y rest hs hsuf
    rcases List.suffix_cons_iff.mp hsuf with heq | htail
    · injection heq with h1 h2
      subst h1
      subst h2
      rw [trigFree] at hs
      have := (Bool.and_eq_true_iff.mp hs).1
      simpa using this
    · have hcs : trigFree cs = true := by
        cases cs with
        | nil => rfl
        | cons c2 cs2 =>
          rw [trigFree] at hs
          exact (Bool.and_eq_true_iff.mp hs).2
      exact ih hcs htail

theorem pat_none_of_trigFree {s t : List Char} (hs : trigFree s = true) (ht : t <:+ s) :
    p1Rest t = none ∧ p2Rest t = none ∧ p3Rest t = none ∧
    p4Rest t = none ∧ p5Rest t = none ∧ p6Rest t = none := by
  refine ⟨?_, ?_, ?_, ?_, ?_, ?_⟩
  · cases hp : p1Rest t with
    | none => rfl
    | some r =>
      obtain ⟨x, y, rest, rfl, hx, hy⟩ := p1Rest_trigger hp
      have hb := trigFree_adj hs ht
      rw [badPair, hx, hy] at hb
      simp at hb
  · cases hp : p2Rest t with
    | none => rfl
    | some r =>
      obtain ⟨x, y, rest, rfl, hx, hy⟩ := p2Rest_trigger hp
      have hb := trigFree_adj hs ht
      rw [badPair, hx, hy] at hb
      simp at hb
  · cases hp : p3Rest t with
    | none => rfl
    | some r =>
      obtain ⟨x, y, rest, rfl, hx, hy⟩ := p3Rest_trigger hp
      have hb := trigFree_adj hs ht
      rw [badPair, hx, hy] at hb
      simp at hb
  · cases hp : p4Rest t with
    | none => rfl
    | some r =>
      obtain ⟨x, y, rest, rfl, hx, hy⟩ := p4Rest_trigger hp
      have hb := trigFree_adj hs ht
      rw [badPair, hx, hy] at hb
      simp at hb
  · cases hp : p5Rest t with
    | none => rfl
    | some r =>
      obtain ⟨x, y, rest, rfl, hx, hy⟩ := p5Rest_trigger hp
      have hb := trigFree_adj hs ht
      rw [badPair, hx, hy] at hb
      simp at hb
  · cases hp : p6Rest t with
    | none => rfl
    | some r =>
      obtain ⟨x, y, rest, rfl, hx, hy⟩ := p6Rest_trigger hp
      have hb := trigFree_adj hs ht
      rw [badPair, hx, hy] at hb
      simp at hb

theorem replacePatAux_eq_self {pat : List Char → Option (List Char)}
    {repl : List Char → List Char} :
    ∀ (fuel : Nat) (s : List Char), (∀ t, t <:+ s → pat t = none) →
      replacePatAux pat repl fuel s = s := by
  intro fuel
  induction fuel with
  | zero =>
    intro s _
    cases s <;> rfl
  | succ f ih =>
    intro s hnone
    cases s with
    | nil => rfl
    | cons c cs =>
      rw [replacePatAux]
      rw [hnone (c :: cs) (List.suffix_refl _)]
      rw [ih cs (fun t htt => hnone t (htt.trans (List.suffix_cons c cs)))]

theorem replacePat_eq_self {pat : List Char → Option (List Char)}
    {repl : List Char → List Char} {s : List Char}
    (hnone : ∀ t, t <:+ s → pat t = none) : replacePat pat repl s = s :=
  replacePatAux_eq_self s.length s hnone

theorem sanitizeCredentials_eq_self {s : String} (h : trigFree s.data = true) :
    sanitizeCredentials s = s := by
  have hall : ∀ t : List Char, t <:+ s.data →
      p1Rest t = none ∧ p2Rest t = none ∧ p3Rest t = none ∧
      p4Rest t = none ∧ p5Rest t = none ∧ p6Rest t = none :=
    fun t ht => pat_none_of_trigFree h ht
  unfold sanitizeCredentials
  simp only [credentialPatterns, List.foldl_cons, List.foldl_nil]
  rw [replacePat_eq_self (fun t ht => (hall t ht).1)]
  rw [replacePat_eq_self (fun t ht => (hall t ht).2.1)]
  rw [replacePat_eq_self (fun t ht => (hall t ht).2.2.1)]
  rw [replacePat_eq_self (fun t ht => (hall t ht).2.2.2.1)]
  rw [replacePat_eq_self (fun t ht => (hall t ht).2.2.2.2.1)]
  rw [replacePat_eq_self (fun t ht => (hall t ht).2.2.2.2.2)]
  rw [replacePat_eq_self (fun t ht => (hall t ht).2.2.2.1)]

theorem trigFree_append : ∀ {a b : List Char}, trigFree a = true → trigFree b = true →
    (∀ x y, a.getLast? = some x → b.head? = some y → badPair x y = false) →
    trigFree (a ++ b) = true := by
  intro a
  induction a with
  | nil =>
    intro b _ hb _
    simpa using hb
  | cons x as ih =>
    intro b ha hb hglue
    cases as with
    | nil =>
      cases b with
      | nil => rfl
      | cons y bs =>
        rw [List.singleton_append, trigFree]
        rw [hglue x y rfl rfl, hb]
        rfl
    | cons y as2 =>
      rw [List.cons_append, List.cons_append, trigFree, ← List.cons_append]
      rw [trigFree] at ha
      obtain ⟨h1, h2⟩ := Bool.and_eq_true_iff.mp ha
      have hrec : trigFree ((y :: as2) ++ b) = true := by
        apply ih h2 hb
        intro u v hu hv
        apply hglue u v _ hv
        rw [List.getLast?_cons_cons]
        exact hu
      rw [h1, hrec]
      rfl

/-- Characters that can appear in a byte-count rendering, all of which are
safe as the second component of an adjacent pair (their lower case is
never u, w, o, slash, e or r). -/
def safeCh (c : Char) : Bool :=
  isDigitCh c || ['.', ' ', 'M', 'B', 'K', '-'].contains c

theorem lowerChar_snd_safe {y : Char} (h : safeCh y = true) :
    lowerChar y ≠ 'u' ∧ lowerChar y ≠ 'w' ∧ lowerChar y ≠ 'o' ∧
    lowerChar y ≠ '/' ∧ lowerChar y ≠ 'e' ∧ lowerChar y ≠ 'r' := by
  unfold safeCh at h
  rcases Bool.or_eq_true_iff.mp h with hd | hc
  · unfold isDigitCh at hd
    rw [Bool.and_eq_true_iff] at hd
    have h48 : 48 ≤ y.toNat := by exact_mod_cast Nat.le_of_ble_eq_true (by simpa using hd.1)
    have h57 : y.toNat ≤ 57 := by exact_mod_cast Nat.le_of_ble_eq_true (by simpa using hd.2)
    have hy : lowerChar y = y := by
      unfold lowerChar
      rw [if_neg]
      simp only [Bool.and_eq_true_iff, decide_eq_true_eq, not_and]
      omega
    rw [hy]
    refine ⟨?_, ?_, ?_, ?_, ?_, ?_⟩
    · exact fun hcon => absurd (congrArg Char.toNat hcon)
        (by have hu : ('u').toNat = 117 := rfl; omega)
    · exact fun hcon => absurd (congrArg Char.toNat hcon)
        (by have hu : ('w').toNat = 119 := rfl; omega)
    · exact fun hcon => absurd (congrArg Char.toNat hcon)
        (by have hu : ('o').toNat = 111 := rfl; omega)
    · exact fun hcon => absurd (congrArg Char.toNat hcon)
        (by have hu : ('/').toNat = 47 := rfl; omega)
    · exact fun hcon => absurd (congrArg Char.toNat hcon)
        (by have hu : ('e').toNat = 101 := rfl; omega)
    · exact fun hcon => absurd (congrArg Char.toNat hcon)
        (by have hu : ('r').toNat = 114 := rfl; omega)
  · have hmem : y ∈ ['.', ' ', 'M', 'B', 'K', '-'] := by
      simpa using hc
    fin_cases hmem <;> decide

theorem badPair_false_of_snd {x y : Char}
    (h : lowerChar y ≠ 'u' ∧ lowerChar y ≠ 'w' ∧ lowerChar y ≠ 'o' ∧
      lowerChar y ≠ '/' ∧ lowerChar y ≠ 'e' ∧ lowerChar y ≠ 'r') :
    badPair x y = false := by
  unfold badPair
  obtain ⟨h1, h2, h3, h4, h5, h6⟩ := h
  simp only [List.contains_cons, List.contains_nil, Bool.or_eq_false_iff,
    beq_eq_false_iff_ne, ne_eq, Prod.mk.injEq, not_and]
  exact ⟨fun _ => h1, fun _ => h2, fun _ => h3, fun _ => h4, fun _ => h5, fun _ => h6, trivial⟩

theorem badPair_false_of_safe_snd {x y : Char} (h : safeCh y = true) : badPair x y = false :=
  badPair_false_of_snd (lowerChar_snd_safe h)

theorem trigFree_of_safe : ∀ {l : List Char}, (∀ c ∈ l, safeCh c = true) →
    trigFree l = true := by
  intro l
  induction l with
  | nil => intro _; rfl
  | cons x xs ih =>
    intro h
    cases xs with
    | nil => rfl
    | cons y ys =>
      rw [trigFree]
      rw [badPair_false_of_safe_snd (h y (by simp))]
      rw [ih (fun c hc => h c (List.mem_cons_of_mem x hc))]
      rfl

theorem digitChar_safe (m : Nat) : safeCh (digitChar m) = true := by
  unfold digitChar
  split <;> decide

theorem natToCharsAux_mem : ∀ (fuel n : Nat) (acc : List Char) (c : Char),
    c ∈ natToCharsAux fuel n acc → (∃ m, c = digitChar m) ∨ c ∈ acc := by
  intro fuel
  induction fuel with
  | zero =>
    intro n acc c h
    exact Or.inr h
  | succ f ih =>
    intro n acc c h
    rw [natToCharsAux] at h
    split at h
    · rcases List.mem_cons.mp h with rfl | hacc
      · exact Or.inl ⟨n, rfl⟩
      · exact Or.inr hacc
    · rcases ih _ _ _ h with hd | hacc
      · exact Or.inl hd
      · rcases List.mem_cons.mp hacc with rfl | hacc2
        · exact Or.inl ⟨n % 10, rfl⟩
        · exact Or.inr hacc2

theorem natToStr_safe (n : Nat) : ∀ c ∈ (natToStr n).data, safeCh c = true := by
  intro c hc
  rcases natToCharsAux_mem _ _ _ _ hc with ⟨m, rfl⟩ | habs
  · exact digitChar_safe m
  · simp at habs

theorem toFixed1_safe (p q : Nat) : ∀ c ∈ (toFixed1 p q).data, safeCh c = true := by
  intro c hc
  unfold toFixed1 at hc
  simp only [String.data_append] at hc
  rcases List.mem_append.mp hc with h1 | h2
  · rcases List.mem_append.mp h1 with h3 | h4
    · exact natToStr_safe _ c h3
    · have hdot : c = '.' := by simpa using h4
      subst hdot
      decide
  · exact natToStr_safe _ c h2

theorem formatBytes_large {n : Int} (h : MAX_TARBALL_SIZE < n) :
    formatBytes n = toFixed1 n.toNat (1024 * 1024) ++ " MB" := by
  unfold formatBytes
  unfold MAX_TARBALL_SIZE at h
  rw [if_neg (by omega), if_neg (by omega)]

theorem formatBytes_large_safe {n : Int} (h : MAX_TARBALL_SIZE < n) :
    ∀ c ∈ (formatBytes n).data, safeCh c = true := by
  rw [formatBytes_large h]
  intro c hc
  simp only [String.data_append] at hc
  rcases List.mem_append.mp hc with h1 | h2
  · exact toFixed1_safe _ _ c h1
  · have : c = ' ' ∨ c = 'M' ∨ c = 'B' := by simpa using h2
    rcases this with rfl | rfl | rfl <;> decide

theorem containsSeq_append_left {nd s : List Char} (h : containsSeq nd s = true)
    (x : List Char) : containsSeq nd (x ++ s) = true := by
  induction x with
  | nil => exact h
  | cons c cs ih =>
    rw [List.cons_append, containsSeq, ih]
    simp

theorem sizeMsg_trigFree {n : Int} (h : MAX_TARBALL_SIZE < n) :
    trigFree ("Tarball size " ++ formatBytes n ++ " exceeds limit of "
      ++ formatBytes MAX_TARBALL_SIZE).data = true := by
  have hfbm : formatBytes MAX_TARBALL_SIZE = "20.0 MB" := by decide
  rw [hfbm]
  simp only [String.data_append]
  rw [List.append_assoc]
  apply trigFree_append
  · apply trigFree_append
    · decide
    · exact trigFree_of_safe (formatBytes_large_safe h)
    · intro x y _ hy
      exact badPair_false_of_safe_snd
        (formatBytes_large_safe h y (List.mem_of_mem_head? (Option.mem_def.mpr hy)))
  · decide
  · intro x y _ hy
    have hsp : ' ' = y := by simpa using hy
    rw [← hsp]
    exact badPair_false_of_safe_snd (by decide)

theorem sizeMsg_sanitized_includes {n : Int} (h : MAX_TARBALL_SIZE < n) :
    strIncludes (sanitizeCredentials ("Tarball size " ++ formatBytes n
      ++ " exceeds limit of " ++ formatBytes MAX_TARBALL_SIZE)) "exceeds limit" = true := by
  rw [sanitizeCredentials_eq_self (sizeMsg_trigFree h)]
  unfold strIncludes
  simp only [String.data_append]
  rw [List.append_assoc]
  apply containsSeq_append_left
  have hfbm : formatBytes MAX_TARBALL_SIZE = "20.0 MB" := by decide
  rw [hfbm]
  decide

/-- C3: the size gate of fetchUrl.  For a 2xx response whose
Content-Length parses to n, a value strictly above MAX_TARBALL_SIZE makes
fetchUrl fail with a SIZE DiffError carrying status 413 and a message
containing "exceeds limit", and the same error results whatever the body
holds (the body is never consumed); a value exactly equal to the limit
passes the gate, and with a non-null body fetchUrl returns the stream. -/
theorem fetchUrl_size_gate (url : String) (r : JsResponse) (n : Int)
    (hok : responseOk r = true)
    (hcl : contentLengthSize r = SizeVal.num n) :
    (MAX_TARBALL_SIZE < n →
      ∃ e : DiffError,
        fetchUrl url r = Except.error e ∧
        e.phase = ErrorPhase.SIZE ∧
        e.status = 413 ∧
        strIncludes e.message "exceeds limit" = true ∧
        (∀ b : Option (List Bytes), fetchUrl url { r with body := b } = Except.error e)) ∧
    (n = MAX_TARBALL_SIZE → ∀ chunks : List Bytes, r.body = some chunks →
      fetchUrl url r = Except.ok { stream := chunks, size := SizeVal.num n }) := by
  constructor
  · intro hlt
    refine ⟨mkDiffError ErrorPhase.SIZE ("Tarball size " ++ formatBytes n
      ++ " exceeds limit of " ++ formatBytes MAX_TARBALL_SIZE), ?_, rfl, rfl, ?_, ?_⟩
    · unfold fetchUrl
      rw [hok, hcl]
      simp [hlt]
    · exact sizeMsg_sanitized_includes hlt
    · intro b
      have hok2 : responseOk { r with body := b } = true := hok
      have hcl2 : contentLengthSize { r with body := b } = SizeVal.num n := hcl
      unfold fetchUrl
      rw [hok2, hcl2]
      simp [hlt]
  · intro heq chunks hbody
    subst heq
    unfold fetchUrl
    rw [hok, hcl, hbody]
    simp

/-- C3 witness: a concrete 2xx response declaring Content-Length 20971521
(one byte over 20 MiB) hits the SIZE gate, and one declaring exactly
20971520 passes it. -/
theorem fetchUrl_size_gate_witness :
    fetchUrl "https://registry.example.com/pkg.tgz"
        { status := 200, statusText := "OK",
          headers := [("Content-Length", "20971521")], body := some [[7]] }
      = Except.error (mkDiffError ErrorPhase.SIZE
          "Tarball size 20.0 MB exceeds limit of 20.0 MB") ∧
    (mkDiffError ErrorPhase.SIZE
        "Tarball size 20.0 MB exceeds limit of 20.0 MB").phase = ErrorPhase.SIZE ∧
    (mkDiffError ErrorPhase.SIZE
        "Tarball size 20.0 MB exceeds limit of 20.0 MB").status = 413 ∧
    strIncludes (mkDiffError ErrorPhase.SIZE
        "Tarball size 20.0 MB exceeds limit of 20.0 MB").message "exceeds limit" = true ∧
    fetchUrl "https://registry.example.com/pkg.tgz"
        { status := 200, statusText := "OK",
          headers := [("Content-Length", "20971520")], body := some [[7]] }
      = Except.ok { stream := [[7]], size := SizeVal.num 20971520 } := by
  have hbig := fetchUrl_size_gate "https://registry.example.com/pkg.tgz"
    { status := 200, statusText := "OK",
      headers := [("Content-Length", "20971521")], body := some [[7]] }
    20971521 (by decide) (by decide)
  obtain ⟨e, he, _, _, _, _⟩ := hbig.1 (by decide)
  have heq := fetchUrl_size_gate "https://registry.example.com/pkg.tgz"
    { status := 200, statusText := "OK",
      headers := [("Content-Length", "20971520")], body := some [[7]] }
    20971520 (by decide) (by decide)
  refine ⟨?_, by decide, by decide, by decide, heq.2 (by decide) [[7]] rfl⟩
  have hval : e = mkDiffError ErrorPhase.SIZE
      "Tarball size 20.0 MB exceeds limit of 20.0 MB" := by
    have hcomp : fetchUrl "https://registry.example.com/pkg.tgz"
        { status := 200, statusText := "OK",
          headers := [("Content-Length", "20971521")], body := some [[7]] }
      = Except.error (mkDiffError ErrorPhase.SIZE
          "Tarball size 20.0 MB exceeds limit of 20.0 MB") := by decide
    have := he.symm.trans hcomp
    injection this
  exact hval ▸ he

/-- Model of the external binary-extensions v3 dependency (the array the
source imports as binaryExtensions).  Only membership facts reach any
property below; the repository's own tests and comments are explicit that
the v3 list contains the common image/audio/video/archive/executable/font
and office extensions but not wasm or node ("Note: wasm and .node are not
in binary-extensions v3"), and this model reproduces exactly those
membership facts.  The 262-entry tail that no property touches is
elided. -/
def binaryExtensions : List String :=
  ["3ds", "7z", "a", "aac", "avi", "bin", "bmp", "class", "dll", "dmg", "docx",
    "eot", "exe", "flac", "gif", "gz", "ico", "jar", "jpeg", "jpg", "mkv",
    "mov", "mp3", "mp4", "o", "ogg", "otf", "pdf", "png", "pptx", "psd",
    "rar", "so", "tar", "tgz", "tiff", "ttf", "war", "wav", "webm", "webp",
    "woff", "woff2", "xlsx", "zip"]

/-- BINARY_EXTENSIONS_SET from src/binary.js: membership in the base
binary-extensions list. -/
def BINARY_EXTENSIONS_SET (ext : String) : Bool :=
  binaryExtensions.contains ext

/-- NPM_BINARY_EXTENSIONS from src/binary.js: the two npm-specific
additions. -/
def NPM_BINARY_EXTENSIONS (ext : String) : Bool :=
  ["wasm", "node"].contains ext

/-- Index of the last occurrence of a character, as
String.prototype.lastIndexOf (none models -1). -/
def lastIndexOf (l : List Char) (c : Char) : Option Nat :=
  match l.reverse.findIdx? (fun x => x = c) with
  | none => none
  | some i => some (l.length - 1 - i)

/-- getExtension from src/binary.js: last path component after the final
slash, then the lower-cased suffix after its final dot; a leading-dot
filename yields the remainder after the dot; no dot yields the empty
string. -/
def getExtension (path : String) : String :=
  let cs := path.data
  let filename :=
    match lastIndexOf cs '/' with
    | none => cs
    | some i => cs.drop (i + 1)
  match lastIndexOf filename '.' with
  | none => ""
  | some 0 => ⟨(filename.drop 1).map lowerChar⟩
  | some i => ⟨(filename.drop (i + 1)).map lowerChar⟩

/-- isBinaryPath from src/binary.js (string inputs; non-string inputs are
outside the model and return false in the source). -/
def isBinaryPath (path : String) : Bool :=
  if path = "" then false
  else
    let ext := getExtension path
    if ext = "" then false
    else BINARY_EXTENSIONS_SET ext || NPM_BINARY_EXTENSIONS ext

/-- shouldPrintPatch from src/binary.js; the text argument is the text
field of the options record (absent models false). -/
def shouldPrintPatch (path : String) (text : Bool) : Bool :=
  if text then true
  else !isBinaryPath path

/-- getBinaryExtensions from src/binary.js: an independent copy of the
base binaryExtensions array only, without the npm-specific additions. -/
def getBinaryExtensions : List String :=
  binaryExtensions

/-- isBinaryExtension from src/binary.js. -/
def isBinaryExtension (ext : String) : Bool :=
  if ext = "" then false
  else
    let lowerExt : String := ⟨ext.data.map lowerChar⟩
    BINARY_EXTENSIONS_SET lowerExt || NPM_BINARY_EXTENSIONS lowerExt

/-- Tar entry header as modern-tar presents it to extractTarball. -/
structure TarHeader where
  name : String
  type : String
  linkname : Option String
deriving DecidableEq, Repr

/-- A decoded tar entry: header plus gathered body bytes (streamToBytes
concatenates the body chunks; here the body is already the byte list). -/
structure TarEntry where
  header : TarHeader
  body : Bytes
deriving DecidableEq, Repr

/-- SYMLINK_TYPES from src/tar.js. -/
def SYMLINK_TYPES (t : String) : Bool :=
  ["symlink", "link"].contains t

/-- FILE_TYPES from src/tar.js. -/
def FILE_TYPES (t : String) : Bool :=
  ["file"].contains t

/-- An insertion-ordered JS Map from path to bytes. -/
abbrev FileMap := List (String × Bytes)

/-- Map.prototype.get: the value at the first (unique) matching key. -/
def jsMapGet (m : FileMap) (k : String) : Option Bytes :=
  (m.find? (fun kv => kv.1 == k)).map (fun kv => kv.2)

/-- Map.prototype.set: overwrite in place (keeping insertion position)
when the key exists, else append. -/
def jsMapSet (m : FileMap) (k : String) (v : Bytes) : FileMap :=
  if m.any (fun kv => kv.1 == k) then
    m.map (fun kv => if kv.1 == k then (kv.1, v) else kv)
  else m ++ [(k, v)]

/-- The keys of a map in insertion order. -/
def jsMapKeys (m : FileMap) : List String :=
  m.map (fun kv => kv.1)

/-- PACKAGE_PREFIX stripping from src/tar.js: name.replace with the
anchored regex removes one leading package/ segment when present. -/
def stripPackage (name : String) : String :=
  if "package/".data.isPrefixOf name.data then ⟨name.data.drop 8⟩ else name

/-- The per-entry loop of extractTarball: symlinks and hardlinks raise
TAR, non-file entries are drained and skipped, file entries are stored
under the stripped path unless stripping empties it. -/
def extractGo : List TarEntry → FileMap → Except DiffError FileMap
  | [], files => Except.ok files
  | e :: rest, files =>
    if SYMLINK_TYPES e.header.type then
      Except.error (mkDiffError .TAR ("Symlinks are not supported: " ++ e.header.name
        ++ " -> " ++ (match e.header.linkname with
          | some l => if l = "" then "(unknown)" else l
          | none => "(unknown)")))
    else if FILE_TYPES e.header.type then
      if stripPackage e.header.name = "" then extractGo rest files
      else extractGo rest (jsMapSet files (stripPackage e.header.name) e.body)
    else extractGo rest files

/-- extractTarball from src/tar.js, modelled at the level of the decoded
tar entry sequence (createTarDecoder, from the external modern-tar
library, turns the byte stream into this sequence). -/
def extractTarball (entries : List TarEntry) : Except DiffError FileMap :=
  extractGo entries []

/-- The Unicode replacement character emitted by lenient decoding. -/
def replCh : Char :=
  Char.ofNat 0xFFFD

/-- UTF-8 continuation byte test. -/
def isCont (b : Nat) : Bool :=
  0x80 ≤ b && b ≤ 0xBF

/-- Second-byte constraint of a three-byte UTF-8 sequence (excludes
overlong encodings and surrogates). -/
def cont3Ok (b1 b2 : Nat) : Bool :=
  isCont b2 && (b1 ≠ 0xE0 || 0xA0 ≤ b2) && (b1 ≠ 0xED || b2 ≤ 0x9F)

/-- Second-byte constraint of a four-byte UTF-8 sequence. -/
def cont4Ok (b1 b2 : Nat) : Bool :=
  isCont b2 && (b1 ≠ 0xF0 || 0x90 ≤ b2) && (b1 ≠ 0xF4 || b2 ≤ 0x8F)

/-- Lenient UTF-8 decoding, as TextDecoder with fatal false: well-formed
sequences decode to their scalar values and malformed input yields
replacement characters (the model emits one replacement per rejected
sequence; the WHATWG maximal-subpart rule can differ only in how many
replacement characters appear, which no property below depends on). -/
def utf8DecodeAux : Nat → List Nat → List Char
  | _, [] => []
  | 0, _ :: _ => []
  | fuel + 1, b1 :: rest =>
    if b1 < 0x80 then Char.ofNat b1 :: utf8DecodeAux fuel rest
    else if 0xC2 ≤ b1 && b1 ≤ 0xDF then
      match rest with
      | b2 :: rest2 =>
        if isCont b2 then Char.ofNat ((b1 - 0xC0) * 64 + (b2 - 0x80)) :: utf8DecodeAux fuel rest2
        else replCh :: utf8DecodeAux fuel rest
      | [] => [replCh]
    else if 0xE0 ≤ b1 && b1 ≤ 0xEF then
      match rest with
      | b2 :: b3 :: rest3 =>
        if cont3Ok b1 b2 && isCont b3 then
          Char.ofNat ((b1 - 0xE0) * 4096 + (b2 - 0x80) * 64 + (b3 - 0x80))
            :: utf8DecodeAux fuel rest3
        else replCh :: utf8DecodeAux fuel rest
      | other => replCh :: utf8DecodeAux fuel other
    else if 0xF0 ≤ b1 && b1 ≤ 0xF4 then
      match rest with
      | b2 :: b3 :: b4 :: rest4 =>
        if cont4Ok b1 b2 && isCont b3 && isCont b4 then
          Char.ofNat ((b1 - 0xF0) * 262144 + (b2 - 0x80) * 4096 + (b3 - 0x80) * 64
            + (b4 - 0x80)) :: utf8DecodeAux fuel rest4
        else replCh :: utf8DecodeAux fuel rest
      | other => replCh :: utf8DecodeAux fuel other
    else replCh :: utf8DecodeAux fuel rest

/-- Lenient UTF-8 decoding of a byte list (fuel initialised to the
length, which always suffices). -/
def utf8Decode (l : List Nat) : List Char :=
  utf8DecodeAux l.length l

/-- decodeBytes from src/diff.js: lenient UTF-8 decoding of a buffer. -/
def decodeBytes (bytes : Bytes) : String :=
  ⟨utf8Decode bytes⟩

/-- Line-ending normalisation on characters: CRLF and lone CR become
LF. -/
def normEOL : List Char → List Char
  | [] => []
  | '\r' :: '\n' :: rest => '\n' :: normEOL rest
  | '\r' :: rest => '\n' :: normEOL rest
  | c :: rest => c :: normEOL rest

/-- normalizeLineEndings from src/diff.js. -/
def normalizeLineEndings (text : String) : String :=
  ⟨normEOL text.data⟩

/-- Pointwise byte comparison of two equal-length buffers. -/
def bytesEqAux : Bytes → Bytes → Bool
  | [], [] => true
  | x :: xs, y :: ys => x == y && bytesEqAux xs ys
  | _, _ => false

/-- areIdentical from src/diff.js: length check then a short-circuit byte
scan (formatDiff re-implements the same check inline; both are this
function). -/
def areIdentical (a b : Bytes) : Bool :=
  if a.length = b.length then bytesEqAux a b else false

/-- jsdiff line tokenisation for LF-only input (computeDiff normalises
line endings first): each line keeps its trailing newline, a final
fragment without one is its own token, and the empty string has no
tokens. -/
def splitLinesAux : List Char → List Char → List (List Char)
  | [], acc => if acc.isEmpty then [] else [acc.reverse]
  | '\n' :: rest, acc => (acc.reverse ++ ['\n']) :: splitLinesAux rest []
  | c :: rest, acc => splitLinesAux rest (c :: acc)

/-- Split into lines that keep their newline. -/
def splitKeepNL (s : List Char) : List (List Char) :=
  splitLinesAux s []

/-- JS String.prototype.trim on a character list. -/
def trimJS (l : List Char) : List Char :=
  ((l.dropWhile isJsSpace).reverse.dropWhile isJsSpace).reverse

/-- String.prototype.trim. -/
def strTrim (s : String) : String :=
  ⟨trimJS s.data⟩

/-- Token equality used by jsdiff diffLines: plain equality, or equality
of trimmed tokens when ignoreWhitespace is set. -/
def tokenEq (ignoreWs : Bool) (a b : List Char) : Bool :=
  if ignoreWs then trimJS a == trimJS b else a == b

/-- One edit operation over line tokens. -/
inductive DiffOp
  | keep (line : List Char)
  | del (line : List Char)
  | ins (line : List Char)
deriving DecidableEq, Repr

/-- Number of non-kept operations in a script. -/
def opCost (ops : List DiffOp) : Nat :=
  ops.countP (fun op => match op with | .keep _ => false | _ => true)

/-- Model of the external jsdiff diffLines edit script: a minimal edit
script over line tokens (the Myers O(ND) algorithm computes the same
optimal script), with kept lines carrying the new-side token and, at equal
cost, deletions preferred before insertions, matching jsdiff output order.
Fuel-indexed for structural recursion; the sum of the lengths always
suffices. -/
def editOpsAux (eq : List Char → List Char → Bool) :
    Nat → List (List Char) → List (List Char) → List DiffOp
  | _, [], bs => bs.map .ins
  | _, a :: as, [] => (a :: as).map .del
  | 0, as, bs => as.map .del ++ bs.map .ins
  | fuel + 1, a :: as, b :: bs =>
    if eq a b then .keep b :: editOpsAux eq fuel as bs
    else
      let viaDel := DiffOp.del a :: editOpsAux eq fuel as (b :: bs)
      let viaIns := DiffOp.ins b :: editOpsAux eq fuel (a :: as) bs
      if opCost viaDel ≤ opCost viaIns then viaDel else viaIns

/-- Minimal edit script between two token lists. -/
def editOps (eq : List Char → List Char → Bool)
    (as bs : List (List Char)) : List DiffOp :=
  editOpsAux eq (as.length + bs.length) as bs

/-- A change object of the jsdiff diff array: an added, removed or common
run of lines. -/
structure ChangeSeg where
  added : Bool
  removed : Bool
  lines : List (List Char)
deriving DecidableEq, Repr

/-- Group consecutive same-kind operations into jsdiff change objects. -/
def segsOf : List DiffOp → List ChangeSeg
  | [] => []
  | op :: rest =>
    let s := segsOf rest
    match op, s with
    | .keep l, ⟨false, false, ls⟩ :: t => ⟨false, false, l :: ls⟩ :: t
    | .keep l, t => ⟨false, false, [l]⟩ :: t
    | .del l, ⟨false, true, ls⟩ :: t => ⟨false, true, l :: ls⟩ :: t
    | .del l, t => ⟨false, true, [l]⟩ :: t
    | .ins l, ⟨true, false, ls⟩ :: t => ⟨true, false, l :: ls⟩ :: t
    | .ins l, t => ⟨true, false, [l]⟩ :: t

/-- A unified-diff hunk as structuredPatch builds it. -/
structure Hunk where
  oldStart : Nat
  oldLines : Nat
  newStart : Nat
  newLines : Nat
  lines : List (List Char)
deriving DecidableEq, Repr

/-- Prefix context lines with a space. -/
def contextLines (ls : List (List Char)) : List (List Char) :=
  ls.map (fun l => ' ' :: l)

/-- The hunk-building loop of jsdiff structuredPatch: a change opens a
hunk (pulling up to context lines from the previous common run), a short
common run away from the end keeps it open, and a long or final common run
closes it with trailing context.  The previous run's lines thread through
as prev, and the i-less-than-length-minus-two index test becomes a test on
the number of remaining segments. -/
def hunksGo (ctx : Nat) : List ChangeSeg → Option (List (List Char)) →
    Nat → Nat → Nat → Nat → List (List Char) → List Hunk → List Hunk
  | [], _, _, _, _, _, _, hunks => hunks
  | seg :: rest, prev?, oldLine, newLine, oldStart, newStart, curRange, hunks =>
    if seg.added || seg.removed then
      let (oldStart2, newStart2, curRange2) :=
        if oldStart = 0 then
          match prev? with
          | some prevLines =>
            let lead := if 0 < ctx then
                contextLines (prevLines.drop (prevLines.length - ctx))
              else []
            (oldLine - lead.length, newLine - lead.length, lead)
          | none => (oldLine, newLine, curRange)
        else (oldStart, newStart, curRange)
      let marked := seg.lines.map (fun l => (if seg.added then '+' else '-') :: l)
      hunksGo ctx rest (some seg.lines)
        (if seg.added then oldLine else oldLine + seg.lines.length)
        (if seg.added then newLine + seg.lines.length else newLine)
        oldStart2 newStart2 (curRange2 ++ marked) hunks
    else
      if oldStart ≠ 0 then
        if seg.lines.length ≤ ctx * 2 && 2 ≤ rest.length then
          hunksGo ctx rest (some seg.lines)
            (oldLine + seg.lines.length) (newLine + seg.lines.length)
            oldStart newStart (curRange ++ contextLines seg.lines) hunks
        else
          let csize := min seg.lines.length ctx
          let hunk : Hunk :=
            ⟨oldStart, oldLine - oldStart + csize, newStart, newLine - newStart + csize,
              curRange ++ contextLines (seg.lines.take csize)⟩
          hunksGo ctx rest (some seg.lines)
            (oldLine + seg.lines.length) (newLine + seg.lines.length)
            0 0 [] (hunks ++ [hunk])
      else
        hunksGo ctx rest (some seg.lines)
          (oldLine + seg.lines.length) (newLine + seg.lines.length)
          oldStart newStart curRange hunks

/-- The no-trailing-newline marker line of unified diffs. -/
def noNlMarker : List Char :=
  "\\ No newline at end of file".data

/-- The end-of-hunk newline pass of structuredPatch: strip each line's
trailing newline, inserting the no-newline marker after a line that lacks
one. -/
def fixHunkLines : List (List Char) → List (List Char)
  | [] => []
  | l :: rest =>
    if l.getLast? = some '\n' then l.dropLast :: fixHunkLines rest
    else l :: noNlMarker :: fixHunkLines rest

/-- The 67-equals-signs separator line formatPatch prints after the
Index line. -/
def sepLine : String := ⟨List.replicate 67 (Char.ofNat 61)⟩

/-- Join with a separator, as Array.prototype.join. -/
def jsJoin (sep : String) : List String → String
  | [] => ""
  | [x] => x
  | x :: y :: rest => x ++ sep ++ jsJoin sep (y :: rest)

/-- Model of the external jsdiff createTwoFilesPatch (structuredPatch
followed by formatPatch): tokenise both strings into lines, compute the
line edit script, build hunks with the requested context, and print the
Index/separator/header lines followed by each hunk with its
at-at range line, decrementing a start count for an empty side as
formatPatch does.  The callers below always pass empty old and new
headers, printed after a tab. -/
def createTwoFilesPatch (oldFileName newFileName oldStr newStr : String)
    (oldHeader newHeader : String) (ctx : Nat) (ignoreWs : Bool) : String :=
  let diffSegs := segsOf (editOps (tokenEq ignoreWs) (splitKeepNL oldStr.data)
    (splitKeepNL newStr.data))
  let withDummy := diffSegs ++ [⟨false, false, []⟩]
  let hunks0 := hunksGo ctx withDummy none 1 1 0 0 [] []
  let hunks := hunks0.map (fun h => { h with lines := fixHunkLines h.lines })
  let headerLines := (if oldFileName = newFileName then ["Index: " ++ oldFileName] else [])
    ++ [sepLine,
      "--- " ++ oldFileName ++ "\t" ++ oldHeader,
      "+++ " ++ newFileName ++ "\t" ++ newHeader]
  let hunkLines := hunks.foldr (fun h acc =>
    let oS := if h.oldLines = 0 then h.oldStart - 1 else h.oldStart
    let nS := if h.newLines = 0 then h.newStart - 1 else h.newStart
    (("@@ -" ++ natToStr oS ++ "," ++ natToStr h.oldLines ++ " +" ++ natToStr nS ++ ","
      ++ natToStr h.newLines ++ " @@") :: h.lines.map (fun l => (⟨l⟩ : String))) ++ acc) []
  jsJoin "\n" (headerLines ++ hunkLines) ++ "\n"

/-- The recognized DiffOptions record.  Absent fields are modelled by
none or false (the JS undefined). -/
structure DiffOptions where
  nameOnly : Bool := false
  context : Option Nat := none
  ignoreAllSpace : Bool := false
  ignoreSpaceChange : Bool := false
  noPrefix : Bool := false
  srcPrefix : Option String := none
  dstPrefix : Option String := none
  text : Bool := false
deriving DecidableEq, Repr

/-- computeDiff from src/diff.js: normalise line endings, build the
jsdiff options (context defaulting to 3, and a single ignoreWhitespace
flag that is the disjunction of ignoreAllSpace and ignoreSpaceChange), and
delegate to createTwoFilesPatch with empty headers. -/
def computeDiff (oldPath newPath oldContent newContent : String)
    (opts : DiffOptions) : String :=
  let ctx := (DiffOptions.context opts).getD 3
  let ignoreWs := DiffOptions.ignoreAllSpace opts || DiffOptions.ignoreSpaceChange opts
  createTwoFilesPatch oldPath newPath (normalizeLineEndings oldContent)
    (normalizeLineEndings newContent) "" "" ctx ignoreWs

/-- hasChanges from src/diff.js: a patch has changes when it contains a
hunk header line. -/
def hasChanges (patch : String) : Bool :=
  strIncludes patch "\n@@ "

/-- UTF-16 code units of one scalar value: BMP scalars are themselves,
astral scalars a surrogate pair. -/
def jsCharUnits (c : Char) : List Nat :=
  if c.toNat < 0x10000 then [c.toNat]
  else [0xD800 + (c.toNat - 0x10000) / 0x400, 0xDC00 + (c.toNat - 0x10000) % 0x400]

/-- UTF-16 code units of a string (JS strings compare by these). -/
def utf16Units (s : String) : List Nat :=
  (s.data.map jsCharUnits).flatten

/-- Lexicographic strict order on code-unit lists. -/
def unitsLt : List Nat → List Nat → Bool
  | [], [] => false
  | [], _ :: _ => true
  | _ :: _, [] => false
  | x :: xs, y :: ys => if x < y then true else if y < x then false else unitsLt xs ys

/-- The default Array.prototype.sort string comparison: lexicographic over
UTF-16 code units. -/
def jsStrLt (a b : String) : Bool :=
  unitsLt (utf16Units a) (utf16Units b)

/-- UTF-8 bytes of one scalar value (the claim of C5 speaks of byte
order; this is the byte encoding of a path string). -/
def utf8CharBytes (c : Char) : List Nat :=
  if c.toNat < 0x80 then [c.toNat]
  else if c.toNat < 0x800 then [0xC0 + c.toNat / 64, 0x80 + c.toNat % 64]
  else if c.toNat < 0x10000 then
    [0xE0 + c.toNat / 4096, 0x80 + c.toNat / 64 % 64, 0x80 + c.toNat % 64]
  else [0xF0 + c.toNat / 262144, 0x80 + c.toNat / 4096 % 64,
    0x80 + c.toNat / 64 % 64, 0x80 + c.toNat % 64]

/-- UTF-8 bytes of a string. -/
def utf8StrBytes (s : String) : List Nat :=
  (s.data.map utf8CharBytes).flatten

/-- Strict ascending comparison over the byte values of path strings, the
order the claim of C5 names. -/
def byteStrLt (a b : String) : Bool :=
  unitsLt (utf8StrBytes a) (utf8StrBytes b)

/-- Stable insertion into a sorted list under the JS string order. -/
def insertSorted (x : String) : List String → List String
  | [] => [x]
  | y :: rest => if jsStrLt x y then x :: y :: rest else y :: insertSorted x rest

/-- Array.prototype.sort with the default comparator (stable, code-unit
lexicographic). -/
def sortJS : List String → List String
  | [] => []
  | x :: rest => insertSorted x (sortJS rest)

/-- Spread of a JS Set built from a list: duplicates removed, first
occurrence kept, insertion order preserved. -/
def dedupAux : List String → List String → List String
  | [], _ => []
  | x :: rest, seen =>
    if seen.contains x then dedupAux rest seen else x :: dedupAux rest (x :: seen)

/-- Duplicate-free list in first-occurrence order. -/
def jsSetDedup (l : List String) : List String :=
  dedupAux l []

/-- The sorted union of the two maps' keys, as computeTreeDiff and
formatDiff both build it. -/
def sortedUnion (l r : FileMap) : List String :=
  sortJS (jsSetDedup (jsMapKeys l ++ jsMapKeys r))

/-- The status field of a FileDiff. -/
inductive FileStatus
  | modified
  | added
  | deleted
  | unchanged
deriving DecidableEq, Repr

/-- A per-file diff record. -/
structure FileDiff where
  path : String
  status : FileStatus
  isBinary : Bool
  patch : Option String
deriving DecidableEq, Repr

/-- computeFileDiff from src/diff.js.  The both-absent case raises a DIFF
DiffError in the source and is unreachable from every caller in this file;
the model returns the unchanged record there. -/
def computeFileDiff (path : String) (left right : Option Bytes)
    (opts : DiffOptions) : FileDiff :=
  let srcPfx := if DiffOptions.noPrefix opts then ""
    else (DiffOptions.srcPrefix opts).getD "a/"
  let dstPfx := if DiffOptions.noPrefix opts then ""
    else (DiffOptions.dstPrefix opts).getD "b/"
  match left, right with
  | some l, some r =>
    if areIdentical l r then
      { path := path, status := .unchanged, isBinary := false, patch := none }
    else
      let patch := computeDiff (srcPfx ++ path) (dstPfx ++ path)
        (decodeBytes l) (decodeBytes r) opts
      { path := path, status := .modified, isBinary := false,
        patch := if hasChanges patch then some patch else none }
  | none, some r =>
    { path := path, status := .added, isBinary := false,
      patch := some (computeDiff "/dev/null" (dstPfx ++ path) "" (decodeBytes r) opts) }
  | some l, none =>
    { path := path, status := .deleted, isBinary := false,
      patch := some (computeDiff (srcPfx ++ path) "/dev/null" (decodeBytes l) "" opts) }
  | none, none =>
    { path := path, status := .unchanged, isBinary := false, patch := none }

/-- The body of the computeTreeDiff loop for one path, given the looked-up
values (empty result when the path is in neither map, which cannot happen
for a path of the union). -/
def treeDiffStep (opts : DiffOptions) (path : String)
    (left right : Option Bytes) : List FileDiff :=
  let srcPfx := if DiffOptions.noPrefix opts then ""
    else (DiffOptions.srcPrefix opts).getD "a/"
  let dstPfx := if DiffOptions.noPrefix opts then ""
    else (DiffOptions.dstPrefix opts).getD "b/"
  match left, right with
  | some l, some r =>
    if areIdentical l r then
      [{ path := path, status := .unchanged, isBinary := false, patch := none }]
    else
      let patch := computeDiff (srcPfx ++ path) (dstPfx ++ path)
        (decodeBytes l) (decodeBytes r) opts
      [{ path := path, status := .modified, isBinary := false,
         patch := if hasChanges patch then some patch else none }]
  | none, some r =>
    [{ path := path, status := .added, isBinary := false,
       patch := some (computeDiff "/dev/null" (dstPfx ++ path) "" (decodeBytes r) opts) }]
  | some l, none =>
    [{ path := path, status := .deleted, isBinary := false,
       patch := some (computeDiff (srcPfx ++ path) "/dev/null" (decodeBytes l) "" opts) }]
  | none, none => []

/-- A Map.prototype.get call with the map state threaded through
explicitly: reading returns the map unchanged.  Mutating calls would
return a different map here, so the frame property of C10 is a statement
about this embedding rather than a definition. -/
def jsMapGetTr (m : FileMap) (k : String) : Option Bytes × FileMap :=
  (jsMapGet m k, m)

/-- The computeTreeDiff loop with both input maps threaded through every
lookup. -/
def computeTreeDiffGo (opts : DiffOptions) :
    List String → FileMap → FileMap → List FileDiff → List FileDiff × FileMap × FileMap
  | [], l, r, results => (results, l, r)
  | p :: rest, l, r, results =>
    let (leftv, l2) := jsMapGetTr l p
    let (rightv, r2) := jsMapGetTr r p
    computeTreeDiffGo opts rest l2 r2 (results ++ treeDiffStep opts p leftv rightv)

/-- computeTreeDiff from src/diff.js with the final map states made
explicit. -/
def computeTreeDiffSt (l r : FileMap) (opts : DiffOptions) :
    List FileDiff × FileMap × FileMap :=
  computeTreeDiffGo opts (sortedUnion l r) l r []

/-- computeTreeDiff from src/diff.js. -/
def computeTreeDiff (l r : FileMap) (opts : DiffOptions) : List FileDiff :=
  (computeTreeDiffSt l r opts).1

/-- formatBinaryHeader from src/format.js. -/
def formatBinaryHeader (path : String) (status : FileStatus)
    (opts : DiffOptions) : String :=
  let srcPfx := if DiffOptions.noPrefix opts then ""
    else (DiffOptions.srcPrefix opts).getD "a/"
  let dstPfx := if DiffOptions.noPrefix opts then ""
    else (DiffOptions.dstPrefix opts).getD "b/"
  let lines := ["diff --git " ++ srcPfx ++ path ++ " " ++ dstPfx ++ path]
    ++ (match status with
      | .added => ["new file mode 100644", "index 0000000..0000000",
        "Binary files /dev/null and " ++ dstPfx ++ path ++ " differ"]
      | .deleted => ["deleted file mode 100644", "index 0000000..0000000",
        "Binary files " ++ srcPfx ++ path ++ " and /dev/null differ"]
      | _ => ["index 0000000..0000000 100644",
        "Binary files " ++ srcPfx ++ path ++ " and " ++ dstPfx ++ path ++ " differ"])
  jsJoin "\n" lines ++ "\n"

/-- formatTextDiff from src/format.js. -/
def formatTextDiff (path patch : String) (status : FileStatus)
    (opts : DiffOptions) : String :=
  let srcPfx := if DiffOptions.noPrefix opts then ""
    else (DiffOptions.srcPrefix opts).getD "a/"
  let dstPfx := if DiffOptions.noPrefix opts then ""
    else (DiffOptions.dstPrefix opts).getD "b/"
  let lines := ["diff --git " ++ srcPfx ++ path ++ " " ++ dstPfx ++ path]
    ++ (match status with
      | .added => ["new file mode 100644", "index 0000000..0000000"]
      | .deleted => ["deleted file mode 100644", "index 0000000..0000000"]
      | _ => ["index 0000000..0000000 100644"])
    ++ [strTrim patch]
  jsJoin "\n" lines ++ "\n"

/-- formatNameOnly from src/format.js. -/
def formatNameOnly (paths : List String) : String :=
  if paths.length = 0 then "" else jsJoin "\n" paths ++ "\n"

/-- The result record of formatDiff. -/
structure FormatResult where
  output : String
  filesChanged : Nat
  filesAdded : Nat
  filesDeleted : Nat
deriving DecidableEq, Repr

/-- The accumulators of the formatDiff loop. -/
structure FmtAcc where
  outputParts : List String
  changedPaths : List String
  filesAdded : Nat
  filesDeleted : Nat
deriving DecidableEq, Repr

/-- The empty-patch fallback of the formatDiff loop: for an added or
deleted file whose first patch had no hunks, recompute the one-sided patch
and emit a text block when the patch string is truthy. -/
def stepEmitEmpty (opts : DiffOptions) (path : String) (left right : Option Bytes)
    (status : FileStatus) : Option String :=
  if status = .added || status = .deleted then
    match FileDiff.patch (computeFileDiff path
        (if status = .deleted then left else none)
        (if status = .added then right else none) opts) with
    | some p2 => if p2 != "" then some (formatTextDiff path p2 status opts) else none
    | none => none
  else none

/-- The block (if any) the formatDiff loop emits for a changed path in
non-name-only mode: a binary header block for binary paths, a text block
when the computed patch is truthy and has hunks, else the empty-patch
fallback. -/
def stepEmit (opts : DiffOptions) (path : String) (left right : Option Bytes)
    (status : FileStatus) (isBinary : Bool) : Option String :=
  if isBinary then some (formatBinaryHeader path status opts)
  else
    match FileDiff.patch (computeFileDiff path left right opts) with
    | some p =>
      if p != "" && hasChanges p then some (formatTextDiff path p status opts)
      else stepEmitEmpty opts path left right status
    | none => stepEmitEmpty opts path left right status

/-- The body of the formatDiff loop for one path, given the looked-up
values: determine the status (counting additions and deletions), skip
byte-identical pairs, record the changed path, and in non-name-only mode
append the block stepEmit produces, if any; a modified pair whose patch
has no hunks emits nothing, while an added or deleted file with a hunkless
patch still emits a block through the recomputed patch. -/
def formatDiffStep (opts : DiffOptions) (path : String)
    (left right : Option Bytes) (acc : FmtAcc) : FmtAcc :=
  match left, right with
  | none, none => acc
  | _, _ =>
    let status : FileStatus :=
      match left, right with
      | some _, some _ => .modified
      | none, some _ => .added
      | _, none => .deleted
    let acc1 : FmtAcc := { acc with
      filesAdded := acc.filesAdded + (if status = .added then 1 else 0),
      filesDeleted := acc.filesDeleted + (if status = .deleted then 1 else 0) }
    let isBinary := !(shouldPrintPatch path (DiffOptions.text opts))
    let identical :=
      match left, right with
      | some l, some r => areIdentical l r
      | _, _ => false
    if status = .modified && identical then acc1
    else
      let acc2 : FmtAcc := { acc1 with changedPaths := acc1.changedPaths ++ [path] }
      if DiffOptions.nameOnly opts then acc2
      else
        match stepEmit opts path left right status isBinary with
        | some blk => { acc2 with outputParts := acc2.outputParts ++ [blk] }
        | none => acc2

/-- The formatDiff loop with both input maps threaded through every
lookup. -/
def formatDiffGo (opts : DiffOptions) :
    List String → FileMap → FileMap → FmtAcc → FmtAcc × FileMap × FileMap
  | [], l, r, acc => (acc, l, r)
  | p :: rest, l, r, acc =>
    let (leftv, l2) := jsMapGetTr l p
    let (rightv, r2) := jsMapGetTr r p
    formatDiffGo opts rest l2 r2 (formatDiffStep opts p leftv rightv acc)

/-- formatDiff from src/format.js with the final map and options states
made explicit. -/
def formatDiffSt (l r : FileMap) (opts : DiffOptions) :
    FormatResult × FileMap × FileMap × DiffOptions :=
  let (acc, l2, r2) := formatDiffGo opts (sortedUnion l r) l r ⟨[], [], 0, 0⟩
  let output := if DiffOptions.nameOnly opts then formatNameOnly acc.changedPaths
    else jsJoin "\n" acc.outputParts
  ({ output := output, filesChanged := acc.changedPaths.length,
     filesAdded := acc.filesAdded, filesDeleted := acc.filesDeleted }, l2, r2, opts)

/-- formatDiff from src/format.js. -/
def formatDiff (l r : FileMap) (opts : DiffOptions) : FormatResult :=
  (formatDiffSt l r opts).1

/-- The final step of the diff entry point in src/index.js: once both
sides are extracted to file maps, diff returns the output field of
formatDiff. -/
def diffFromMaps (l r : FileMap) (opts : DiffOptions) : String :=
  (formatDiff l r opts).output

theorem jsHeadersGet_set (h : List (String × String)) (n v : String) :
    jsHeadersGet (jsHeadersSet h n v) n = some v := by
  unfold jsHeadersSet
  split
  case isTrue hfind =>
    rw [Option.isSome_iff_exists] at hfind
    obtain ⟨kv, hkv⟩ := hfind
    unfold jsHeadersGet
    rw [List.find?_map]
    have hcomp : ((fun kv : String × String => kv.1.data.map lowerChar == n.data.map lowerChar)
          ∘ (fun kv : String × String =>
            if kv.1.data.map lowerChar == n.data.map lowerChar then (kv.1, v) else kv))
        = fun kv : String × String => kv.1.data.map lowerChar == n.data.map lowerChar := by
      funext kv
      simp only [Function.comp_apply]
      by_cases hc : (kv.1.data.map lowerChar == n.data.map lowerChar) = true
      · rw [if_pos hc]
      · rw [if_neg hc]
    rw [hcomp, hkv]
    have hpkv := List.find?_some hkv
    simp [hpkv]
    rw [if_pos (by simpa using hpkv)]
  case isFalse hfind =>
    unfold jsHeadersGet
    rw [List.find?_append]
    have hnone : (h.find? fun kv => kv.1.data.map lowerChar == n.data.map lowerChar) = none := by
      cases hf : h.find? fun kv => kv.1.data.map lowerChar == n.data.map lowerChar with
      | none => rfl
      | some kv => exact absurd (by rw [hf]; rfl) hfind
    rw [hnone]
    simp

/-- C7: the applyAuth contract.  Auth none, undefined or the empty tag
leaves the headers untouched; bearer and basic with a nonempty credential
set the Authorization header to exactly the Bearer or Basic value; bearer
and basic with a missing or empty credential fail with phase AUTH; and any
unknown tag fails with phase AUTH whatever the credential. -/
theorem applyAuth_spec :
    (∀ (h : List (String × String)) (cred : Option String),
      applyAuth h none cred = Except.ok h ∧
      applyAuth h (some "none") cred = Except.ok h ∧
      applyAuth h (some "") cred = Except.ok h) ∧
    (∀ (h : List (String × String)) (c : String), c ≠ "" →
      applyAuth h (some "bearer") (some c)
          = Except.ok (jsHeadersSet h "Authorization" ("Bearer " ++ c)) ∧
      jsHeadersGet (jsHeadersSet h "Authorization" ("Bearer " ++ c)) "Authorization"
          = some ("Bearer " ++ c) ∧
      applyAuth h (some "basic") (some c)
          = Except.ok (jsHeadersSet h "Authorization" ("Basic " ++ c)) ∧
      jsHeadersGet (jsHeadersSet h "Authorization" ("Basic " ++ c)) "Authorization"
          = some ("Basic " ++ c)) ∧
    (∀ (h : List (String × String)) (a : String), a ≠ "none" → a ≠ "" →
      (∃ e : DiffError, applyAuth h (some a) none = Except.error e ∧ e.phase = .AUTH) ∧
      (∃ e : DiffError, applyAuth h (some a) (some "") = Except.error e ∧ e.phase = .AUTH)) ∧
    (∀ (h : List (String × String)) (a : String) (cred : Option String),
      a ≠ "none" → a ≠ "" → a ≠ "basic" → a ≠ "bearer" →
      ∃ e : DiffError, applyAuth h (some a) cred = Except.error e ∧ e.phase = .AUTH) := by
  refine ⟨?_, ?_, ?_, ?_⟩
  · intro h cred
    refine ⟨?_, ?_, ?_⟩ <;> simp [applyAuth]
  · intro h c hc
    have hcn : (c != "") = true := by simpa using hc
    refine ⟨?_, jsHeadersGet_set h _ _, ?_, jsHeadersGet_set h _ _⟩ <;>
      simp [applyAuth, hcn]
  · intro h a ha1 ha2
    constructor
    · refine ⟨mkDiffError .AUTH ("Auth type " ++ apos ++ a ++ apos ++ " requires a credential"),
        ?_, rfl⟩
      simp [applyAuth, ha1, ha2]
    · refine ⟨mkDiffError .AUTH ("Auth type " ++ apos ++ a ++ apos ++ " requires a credential"),
        ?_, rfl⟩
      simp [applyAuth, ha1, ha2]
  · intro h a cred ha1 ha2 ha3 ha4
    match cred with
    | none =>
      refine ⟨mkDiffError .AUTH ("Auth type " ++ apos ++ a ++ apos ++ " requires a credential"),
        ?_, rfl⟩
      simp [applyAuth, ha1, ha2]
    | some c =>
      by_cases hc : c = ""
      · subst hc
        refine ⟨mkDiffError .AUTH ("Auth type " ++ apos ++ a ++ apos ++ " requires a credential"),
          ?_, rfl⟩
        simp [applyAuth, ha1, ha2]
      · refine ⟨mkDiffError .AUTH ("Unknown auth type: " ++ a), ?_, rfl⟩
        have hcn : (c != "") = true := by simpa using hc
        simp only [applyAuth, ha1, ha2, hcn]
        rw [if_neg (by simp [ha1, ha2])]
        simp only [Option.getD_some, if_pos rfl]
        split <;> simp_all

/-- C7 witness: the applyAuth contract evaluated at concrete inputs. -/
theorem applyAuth_spec_witness :
    applyAuth [] none (some "tok") = Except.ok [] ∧
    applyAuth [("Accept", "gzip")] (some "none") none = Except.ok [("Accept", "gzip")] ∧
    applyAuth [] (some "bearer") (some "npmtoken")
        = Except.ok [("Authorization", "Bearer npmtoken")] ∧
    jsHeadersGet [("Authorization", "Bearer npmtoken")] "Authorization"
        = some ("Bearer npmtoken") ∧
    applyAuth [] (some "basic") (some "dXNlcjpwYXNz")
        = Except.ok [("Authorization", "Basic dXNlcjpwYXNz")] ∧
    (∃ e : DiffError, applyAuth [] (some "bearer") none = Except.error e ∧ e.phase = .AUTH) ∧
    (∃ e : DiffError, applyAuth [] (some "basic") (some "") = Except.error e ∧ e.phase = .AUTH) ∧
    (∃ e : DiffError, applyAuth [] (some "digest") (some "credval12")
        = Except.error e ∧ e.phase = .AUTH) := by
  refine ⟨(applyAuth_spec.1 [] (some "tok")).1, (applyAuth_spec.1 [("Accept", "gzip")] none).2.1,
    ?_, ?_, ?_, ?_, ?_, ?_⟩
  · have := (applyAuth_spec.2.1 [] "npmtoken" (by decide)).1
    rw [this]
    decide
  · exact (applyAuth_spec.2.1 [] "npmtoken" (by decide)).2.1
  · have := (applyAuth_spec.2.1 [] "dXNlcjpwYXNz" (by decide)).2.2.1
    rw [this]
    decide
  · exact ((applyAuth_spec.2.2.1 [] "bearer" (by decide) (by decide)).1)
  · exact ((applyAuth_spec.2.2.1 [] "basic" (by decide) (by decide)).2)
  · exact applyAuth_spec.2.2.2 [] "digest" (some "credval12")
      (by decide) (by decide) (by decide) (by decide)

/-- C9: the classifier and the exported list disagree on the npm-specific
additions: wasm and node are classified binary by isBinaryExtension (via
NPM_BINARY_EXTENSIONS) yet absent from the array getBinaryExtensions
returns, which copies only the base binary-extensions list. -/
theorem binary_ext_exports_disagree :
    isBinaryExtension "wasm" = true ∧ isBinaryExtension "node" = true ∧
    getBinaryExtensions.contains "wasm" = false ∧
    getBinaryExtensions.contains "node" = false := by
  refine ⟨by decide, by decide, by decide, by decide⟩

theorem jsMapSet_keys_mem {m : FileMap} {k : String} {v : Bytes} :
    ∀ k2 ∈ jsMapKeys (jsMapSet m k v), k2 ∈ jsMapKeys m ∨ k2 = k := by
  intro k2 hk2
  unfold jsMapSet at hk2
  split at hk2
  · left
    unfold jsMapKeys at hk2 ⊢
    rw [List.map_map] at hk2
    have hfun : ((fun kv : String × Bytes => kv.1) ∘
        (fun kv : String × Bytes => if kv.1 == k then (kv.1, v) else kv))
        = fun kv : String × Bytes => kv.1 := by
      funext kv
      simp only [Function.comp_apply]
      by_cases hc : (kv.1 == k) = true
      · rw [if_pos hc]
      · rw [if_neg hc]
    rwa [hfun] at hk2
  · unfold jsMapKeys at hk2
    rw [List.map_append] at hk2
    rcases List.mem_append.mp hk2 with h1 | h2
    · exact Or.inl h1
    · right
      simpa using h2

theorem extractGo_keys : ∀ (es : List TarEntry) (acc m : FileMap),
    extractGo es acc = Except.ok m →
    ∀ k ∈ jsMapKeys m, k ∈ jsMapKeys acc ∨
      ∃ e ∈ es, FILE_TYPES e.header.type = true ∧
        k = stripPackage e.header.name ∧ k ≠ "" := by
  intro es
  induction es with
  | nil =>
    intro acc m hok k hk
    left
    unfold extractGo at hok
    injection hok with h
    rwa [h]
  | cons e rest ih =>
    intro acc m hok k hk
    unfold extractGo at hok
    split at hok
    · simp at hok
    · split at hok
      case isTrue hfile =>
        split at hok
        case isTrue hempty =>
          rcases ih acc m hok k hk with hacc | ⟨e2, he2, hrest⟩
          · exact Or.inl hacc
          · exact Or.inr ⟨e2, List.mem_cons_of_mem e he2, hrest⟩
        case isFalse hempty =>
          rcases ih _ m hok k hk with hacc | ⟨e2, he2, hrest⟩
          · rcases jsMapSet_keys_mem k hacc with h1 | h2
            · exact Or.inl h1
            · exact Or.inr ⟨e, List.mem_cons_self e rest, hfile, h2, h2 ▸ hempty⟩
          · exact Or.inr ⟨e2, List.mem_cons_of_mem e he2, hrest⟩
      case isFalse =>
        rcases ih acc m hok k hk with hacc | ⟨e2, he2, hrest⟩
        · exact Or.inl hacc
        · exact Or.inr ⟨e2, List.mem_cons_of_mem e he2, hrest⟩

/-- C4 (amended): every key of a successfully extracted FileMap is
nonempty, and a key can retain a package/ prefix only because some file
entry of the archive was doubly nested under package/package/ (stripping
removes exactly one leading package/ segment). -/
theorem extractTarball_keys (entries : List TarEntry) (m : FileMap)
    (hok : extractTarball entries = Except.ok m) :
    ∀ kv ∈ m, kv.1 ≠ "" ∧
      ("package/".data.isPrefixOf kv.1.data = true →
        ∃ e ∈ entries, FILE_TYPES e.header.type = true ∧
          "package/package/".data.isPrefixOf e.header.name.data = true) := by
  intro kv hkv
  have hk : kv.1 ∈ jsMapKeys m := List.mem_map_of_mem _ hkv
  rcases extractGo_keys entries [] m hok kv.1 hk with habs | ⟨e, he, hfile, hstrip, hne⟩
  · simp [jsMapKeys] at habs
  refine ⟨hne, ?_⟩
  intro hpre
  refine ⟨e, he, hfile, ?_⟩
  unfold stripPackage at hstrip
  split at hstrip
  · rename_i hname
    have hnp : "package/".data <+: e.header.name.data :=
      List.isPrefixOf_iff_prefix.mp hname
    obtain ⟨t, ht⟩ := hnp
    have hdrop : e.header.name.data.drop 8 = t := by
      rw [← ht]
      exact List.drop_left "package/".data t
    rw [hstrip] at hpre
    simp only [hdrop] at hpre
    have hpt : "package/".data <+: t := List.isPrefixOf_iff_prefix.mp hpre
    obtain ⟨t2, ht2⟩ := hpt
    apply List.isPrefixOf_iff_prefix.mpr
    refine ⟨t2, ?_⟩
    rw [← ht, ← ht2]
    rw [show ("package/package/".data : List Char)
      = "package/".data ++ "package/".data from by decide]
    rw [List.append_assoc]
  · rename_i hname
    rw [hstrip] at hpre
    exact absurd hpre hname

/-- C4 witness for the amended claim: a two-entry archive with a normal
and a doubly nested name. -/
theorem extractTarball_keys_witness :
    ("a.js" : String) ≠ "" ∧
    (∃ e ∈ [TarEntry.mk (TarHeader.mk "package/a.js" "file" none) [1],
        TarEntry.mk (TarHeader.mk "package/package/x" "file" none) []],
      FILE_TYPES e.header.type = true ∧
      "package/package/".data.isPrefixOf e.header.name.data = true) := by
  have h := extractTarball_keys
    [TarEntry.mk (TarHeader.mk "package/a.js" "file" none) [1],
      TarEntry.mk (TarHeader.mk "package/package/x" "file" none) []]
    [("a.js", [1]), ("package/x", [])] (by decide)
  exact ⟨(h ("a.js", [1]) (by decide)).1, (h ("package/x", []) (by decide)).2 (by decide)⟩

/-- C4 counterexample: an archive whose entry is named
package/package/x extracts successfully to a FileMap whose key
package/x still starts with package/, refuting the claim that no key of
an extracted FileMap starts with package/. -/
theorem extractTarball_nested_prefix_counterexample :
    extractTarball [TarEntry.mk (TarHeader.mk "package/package/x" "file" none) []]
        = Except.ok [("package/x", [])] ∧
    "package/".data.isPrefixOf ("package/x" : String).data = true := by
  refine ⟨by decide, by decide⟩

/-- C6: the two whitespace flags are interchangeable: computeDiff builds
the same single jsdiff ignoreWhitespace option from either, so the
outputs are equal for all paths, contents and remaining options. -/
theorem computeDiff_ws_flags_equal (oldPath newPath oldContent newContent : String)
    (nm np tx : Bool) (ctx : Option Nat) (sp dp : Option String) :
    computeDiff oldPath newPath oldContent newContent
        { nameOnly := nm, context := ctx, ignoreAllSpace := true,
          ignoreSpaceChange := false, noPrefix := np,
          srcPrefix := sp, dstPrefix := dp, text := tx }
      = computeDiff oldPath newPath oldContent newContent
        { nameOnly := nm, context := ctx, ignoreAllSpace := false,
          ignoreSpaceChange := true, noPrefix := np,
          srcPrefix := sp, dstPrefix := dp, text := tx } := by
  rfl

theorem formatDiffGo_eq (opts : DiffOptions) (ps : List String) :
    ∀ (l r : FileMap) (acc : FmtAcc),
    formatDiffGo opts ps l r acc
      = (ps.foldl (fun a p => formatDiffStep opts p (jsMapGet l p) (jsMapGet r p) a) acc,
        l, r) := by
  induction ps with
  | nil => intro l r acc; rfl
  | cons p rest ih =>
    intro l r acc
    rw [formatDiffGo, List.foldl_cons]
    exact ih l r _

theorem computeTreeDiffGo_eq (opts : DiffOptions) (ps : List String) :
    ∀ (l r : FileMap) (results : List FileDiff),
    computeTreeDiffGo opts ps l r results
      = (ps.foldl (fun res p => res ++ treeDiffStep opts p (jsMapGet l p) (jsMapGet r p))
          results, l, r) := by
  induction ps with
  | nil => intro l r results; rfl
  | cons p rest ih =>
    intro l r results
    rw [computeTreeDiffGo, List.foldl_cons]
    exact ih l r _

/-- C10: formatDiff and computeTreeDiff are read-only.  In the threaded
embedding, where every Map read passes the map state along, both loops
return the input maps (same entries, same contents, same insertion order,
since a FileMap is an ordered list) and the options record unchanged. -/
theorem formatDiff_treeDiff_frame (l r : FileMap) (opts : DiffOptions) :
    (formatDiffSt l r opts).2 = (l, r, opts) ∧
    (computeTreeDiffSt l r opts).2 = (l, r) := by
  constructor
  · unfold formatDiffSt
    rw [formatDiffGo_eq]
  · unfold computeTreeDiffSt
    rw [computeTreeDiffGo_eq]

theorem unitsLt_trans : ∀ a b c : List Nat,
    unitsLt a b = true → unitsLt b c = true → unitsLt a c = true := by
  intro a
  induction a with
  | nil =>
    intro b c hab hbc
    cases b with
    | nil => cases c <;> simp [unitsLt] at *
    | cons y ys =>
      cases c with
      | nil => simp [unitsLt] at hbc
      | cons z zs => simp [unitsLt]
  | cons x xs ih =>
    intro b c hab hbc
    cases b with
    | nil => simp [unitsLt] at hab
    | cons y ys =>
      cases c with
      | nil => simp [unitsLt] at hbc
      | cons z zs =>
        rw [unitsLt] at hab hbc ⊢
        split at hab
        · rename_i hxy
          split at hbc
          · rename_i hyz
            rw [if_pos (by omega)]
          · split at hbc
            · simp at hbc
            · rename_i hzy hyz
              rw [if_pos (by omega)]
        · split at hab
          · simp at hab
          · rename_i hyx hxy2
            split at hbc
            · rename_i hyz
              rw [if_pos (by omega)]
            · split at hbc
              · simp at hbc
              · rename_i hzy hyz2
                rw [if_neg (by omega), if_neg (by omega)]
                exact ih ys zs hab hbc

theorem unitsLt_asymm : ∀ a b : List Nat, unitsLt a b = true → unitsLt b a = false := by
  intro a
  induction a with
  | nil =>
    intro b hab
    cases b with
    | nil => simp [unitsLt] at hab
    | cons y ys => simp [unitsLt]
  | cons x xs ih =>
    intro b hab
    cases b with
    | nil => simp [unitsLt] at hab
    | cons y ys =>
      rw [unitsLt] at hab ⊢
      split at hab
      · rename_i hxy
        rw [if_neg (by omega), if_pos (by omega)]
      · split at hab
        · simp at hab
        · rename_i hyx hxy
          rw [if_neg (by omega), if_neg (by omega)]
          exact ih ys hab

theorem unitsLt_total : ∀ a b : List Nat, a ≠ b →
    unitsLt a b = true ∨ unitsLt b a = true := by
  intro a
  induction a with
  | nil =>
    intro b hne
    cases b with
    | nil => exact absurd rfl hne
    | cons y ys => left; simp [unitsLt]
  | cons x xs ih =>
    intro b hne
    cases b with
    | nil => right; simp [unitsLt]
    | cons y ys =>
      by_cases hxy : x = y
      · subst hxy
        have hys : xs ≠ ys := by
          intro hcon
          exact hne (by rw [hcon])
        rcases ih ys hys with h1 | h1
        · left
          rw [unitsLt, if_neg (by omega), if_neg (by omega)]
          exact h1
        · right
          rw [unitsLt, if_neg (by omega), if_neg (by omega)]
          exact h1
      · rcases Nat.lt_or_ge x y with h1 | h1
        · left
          rw [unitsLt, if_pos h1]
        · right
          rw [unitsLt, if_pos (by omega)]

theorem char_toNat_valid (c : Char) :
    c.toNat < 0xD800 ∨ (0xDFFF < c.toNat ∧ c.toNat < 0x110000) :=
  c.valid

theorem char_eq_of_toNat_eq {a b : Char} (h : a.toNat = b.toNat) : a = b :=
  Char.ext (UInt32.ext h)

theorem utf16Chars_inj : ∀ l1 l2 : List Char,
    (l1.map jsCharUnits).flatten = (l2.map jsCharUnits).flatten → l1 = l2 := by
  intro l1
  induction l1 with
  | nil =>
    intro l2 h
    cases l2 with
    | nil => rfl
    | cons c cs =>
      exfalso
      simp only [List.map_nil, List.flatten_nil, List.map_cons, List.flatten_cons] at h
      unfold jsCharUnits at h
      split at h <;> simp at h
  | cons c1 cs1 ih =>
    intro l2 h
    cases l2 with
    | nil =>
      exfalso
      simp only [List.map_nil, List.flatten_nil, List.map_cons, List.flatten_cons] at h
      unfold jsCharUnits at h
      split at h <;> simp at h
    | cons c2 cs2 =>
      simp only [List.map_cons, List.flatten_cons] at h
      have hv1 := char_toNat_valid c1
      have hv2 := char_toNat_valid c2
      unfold jsCharUnits at h
      by_cases hb1 : c1.toNat < 0x10000
      · by_cases hb2 : c2.toNat < 0x10000
        · rw [if_pos hb1, if_pos hb2] at h
          simp only [List.cons_append, List.cons.injEq] at h
          obtain ⟨heq, hrest⟩ := h
          rw [ih cs2 hrest, char_eq_of_toNat_eq heq]
        · rw [if_pos hb1, if_neg hb2] at h
          simp only [List.cons_append, List.cons.injEq] at h
          obtain ⟨heq, _⟩ := h
          exfalso
          have hq : (c2.toNat - 0x10000) / 0x400 < 0x400 := by omega
          omega
      · by_cases hb2 : c2.toNat < 0x10000
        · rw [if_neg hb1, if_pos hb2] at h
          simp only [List.cons_append, List.cons.injEq] at h
          obtain ⟨heq, _⟩ := h
          exfalso
          have hq : (c1.toNat - 0x10000) / 0x400 < 0x400 := by omega
          omega
        · rw [if_neg hb1, if_neg hb2] at h
          simp only [List.cons_append, List.cons.injEq] at h
          obtain ⟨heq1, heq2, hrest⟩ := h
          have hm1 := Nat.div_add_mod (c1.toNat - 0x10000) 0x400
          have hm2 := Nat.div_add_mod (c2.toNat - 0x10000) 0x400
          have heqn : c1.toNat = c2.toNat := by omega
          rw [ih cs2 hrest, char_eq_of_toNat_eq heqn]

theorem jsStrLt_total {a b : String} (hne : a ≠ b) :
    jsStrLt a b = true ∨ jsStrLt b a = true := by
  apply unitsLt_total
  intro hcon
  exact hne (congrArg String.mk (utf16Chars_inj a.data b.data hcon))

theorem jsStrLt_asymm {a b : String} (h : jsStrLt a b = true) : jsStrLt b a = false :=
  unitsLt_asymm _ _ h

theorem jsStrLt_trans {a b c : String} (h1 : jsStrLt a b = true)
    (h2 : jsStrLt b c = true) : jsStrLt a c = true :=
  unitsLt_trans _ _ _ h1 h2

theorem insertSorted_perm (x : String) : ∀ ls : List String,
    (insertSorted x ls).Perm (x :: ls) := by
  intro ls
  induction ls with
  | nil => rfl
  | cons y rest ih =>
    rw [insertSorted]
    split
    · rfl
    · exact (List.Perm.cons y ih).trans (List.Perm.swap x y rest)

theorem sortJS_perm : ∀ l : List String, (sortJS l).Perm l := by
  intro l
  induction l with
  | nil => rfl
  | cons x rest ih =>
    rw [sortJS]
    exact (insertSorted_perm x (sortJS rest)).trans (List.Perm.cons x ih)

/-- The nonstrict order under which sortJS sorts. -/
def jsLe (a b : String) : Prop :=
  jsStrLt b a = false

theorem insertSorted_pairwise {x : String} : ∀ {ls : List String},
    List.Pairwise jsLe ls → List.Pairwise jsLe (insertSorted x ls) := by
  intro ls
  induction ls with
  | nil =>
    intro _
    simp [insertSorted, List.pairwise_singleton]
  | cons y rest ih =>
    intro hp
    rw [insertSorted]
    rw [List.pairwise_cons] at hp
    obtain ⟨hy, hrest⟩ := hp
    split
    · rename_i hlt
      rw [List.pairwise_cons]
      constructor
      · intro z hz
        rcases List.mem_cons.mp hz with rfl | hz2
        · exact jsStrLt_asymm hlt
        · have hyz := hy z hz2
          unfold jsLe at hyz ⊢
          cases hzx : jsStrLt z x with
          | false => rfl
          | true =>
            exfalso
            have := jsStrLt_trans hzx hlt
            rw [this] at hyz
            exact Bool.true_eq_false.mp hyz
      · exact List.Pairwise.cons hy hrest
    · rename_i hnlt
      rw [List.pairwise_cons]
      constructor
      · intro z hz
        have hz2 := (insertSorted_perm x rest).mem_iff.mp hz
        rcases List.mem_cons.mp hz2 with rfl | hz3
        · unfold jsLe
          simpa using hnlt
        · exact hy z hz3
      · exact ih hrest

theorem sortJS_pairwise : ∀ l : List String, List.Pairwise jsLe (sortJS l) := by
  intro l
  induction l with
  | nil => exact List.Pairwise.nil
  | cons x rest ih =>
    rw [sortJS]
    exact insertSorted_pairwise ih

theorem dedupAux_spec : ∀ (l seen : List String),
    (dedupAux l seen).Nodup ∧ ∀ y ∈ dedupAux l seen, seen.contains y = false := by
  intro l
  induction l with
  | nil => intro seen; exact ⟨List.nodup_nil, by simp [dedupAux]⟩
  | cons x rest ih =>
    intro seen
    rw [dedupAux]
    split
    · exact ih seen
    · rename_i hxs
      obtain ⟨hnd, hmem⟩ := ih (x :: seen)
      constructor
      · rw [List.nodup_cons]
        constructor
        · intro hcon
          have := hmem x hcon
          simp at this
        · exact hnd
      · intro y hy
        rcases List.mem_cons.mp hy with rfl | hy2
        · simpa using hxs
        · have := hmem y hy2
          simp only [List.contains_cons, Bool.or_eq_false_iff] at this
          exact this.2

theorem sortedUnion_nodup (l r : FileMap) : (sortedUnion l r).Nodup := by
  unfold sortedUnion jsSetDedup
  exact (sortJS_perm _).nodup_iff.mpr (dedupAux_spec _ []).1

/-- C5 groundwork: the sorted union is strictly ascending in the JS
string order (UTF-16 code-unit lexicographic). -/
theorem sortedUnion_pairwise_lt (l r : FileMap) :
    List.Pairwise (fun a b => jsStrLt a b = true) (sortedUnion l r) := by
  have hle : List.Pairwise jsLe (sortedUnion l r) := sortJS_pairwise _
  have hnd : (sortedUnion l r).Nodup := sortedUnion_nodup l r
  have hboth := hle.and hnd
  apply hboth.imp
  intro a b hab
  obtain ⟨hle2, hne⟩ := hab
  rcases jsStrLt_total hne with h1 | h1
  · exact h1
  · have hf : jsStrLt b a = false := hle2
    rw [hf] at h1
    simp at h1

theorem mem_dedupAux : ∀ {l seen : List String} {y : String},
    y ∈ dedupAux l seen → y ∈ l := by
  intro l
  induction l with
  | nil => intro seen y h; simp [dedupAux] at h
  | cons x rest ih =>
    intro seen y h
    rw [dedupAux] at h
    split at h
    · exact List.mem_cons_of_mem x (ih h)
    · rcases List.mem_cons.mp h with rfl | h2
      · exact List.mem_cons_self _ _
      · exact List.mem_cons_of_mem x (ih h2)

theorem jsMapGet_isSome_of_mem_keys {m : FileMap} {p : String}
    (h : p ∈ jsMapKeys m) : (jsMapGet m p).isSome = true := by
  unfold jsMapKeys at h
  obtain ⟨kv, hkv, hfst⟩ := List.mem_map.mp h
  unfold jsMapGet
  have hsome : (List.find? (fun kv => kv.1 == p) m).isSome = true := by
    rw [List.find?_isSome]
    exact ⟨kv, hkv, by simp [hfst]⟩
  cases hf : List.find? (fun kv => kv.1 == p) m with
  | none => rw [hf] at hsome; simp at hsome
  | some kv2 => rfl

theorem mem_sortedUnion_isSome {l r : FileMap} {p : String}
    (h : p ∈ sortedUnion l r) :
    (jsMapGet l p).isSome = true ∨ (jsMapGet r p).isSome = true := by
  unfold sortedUnion at h
  have h2 : p ∈ jsSetDedup (jsMapKeys l ++ jsMapKeys r) := (sortJS_perm _).mem_iff.mp h
  have h3 : p ∈ jsMapKeys l ++ jsMapKeys r := mem_dedupAux h2
  rcases List.mem_append.mp h3 with h4 | h4
  · exact Or.inl (jsMapGet_isSome_of_mem_keys h4)
  · exact Or.inr (jsMapGet_isSome_of_mem_keys h4)

theorem treeDiffStep_paths {opts : DiffOptions} {p : String} {lv rv : Option Bytes}
    (h : lv.isSome = true ∨ rv.isSome = true) :
    (treeDiffStep opts p lv rv).map FileDiff.path = [p] := by
  rcases lv with _ | a
  · rcases rv with _ | b
    · simp at h
    · simp [treeDiffStep]
  · rcases rv with _ | b
    · simp [treeDiffStep]
    · unfold treeDiffStep
      (repeat' split) <;> simp_all

theorem computeTreeDiff_paths_aux (opts : DiffOptions) (l r : FileMap) :
    ∀ (ps : List String) (res0 : List FileDiff),
    (∀ p ∈ ps, (jsMapGet l p).isSome = true ∨ (jsMapGet r p).isSome = true) →
    (ps.foldl (fun res p => res ++ treeDiffStep opts p (jsMapGet l p) (jsMapGet r p))
        res0).map FileDiff.path
      = res0.map FileDiff.path ++ ps := by
  intro ps
  induction ps with
  | nil =>
    intro res0 _
    simp
  | cons p rest ih =>
    intro res0 hmem
    rw [List.foldl_cons]
    rw [ih _ (fun q hq => hmem q (List.mem_cons_of_mem p hq))]
    rw [List.map_append]
    rw [treeDiffStep_paths (hmem p (List.mem_cons_self p rest))]
    simp

/-- The sorted union is exactly the path sequence of computeTreeDiff. -/
theorem computeTreeDiff_paths (l r : FileMap) (opts : DiffOptions) :
    (computeTreeDiff l r opts).map FileDiff.path = sortedUnion l r := by
  unfold computeTreeDiff computeTreeDiffSt
  rw [computeTreeDiffGo_eq]
  have := computeTreeDiff_paths_aux opts l r (sortedUnion l r) []
    (fun p hp => mem_sortedUnion_isSome hp)
  simpa using this

/-- Whether the formatDiff loop counts a path as changed: present on at
least one side and not byte-identical on both. -/
def pathChanged (lv rv : Option Bytes) : Bool :=
  match lv, rv with
  | some a, some b => !(areIdentical a b)
  | none, none => false
  | _, _ => true

/-- The empty formatDiff accumulator. -/
def emptyAcc : FmtAcc :=
  ⟨[], [], 0, 0⟩

theorem formatDiffStep_changedPaths (opts : DiffOptions) (p : String)
    (lv rv : Option Bytes) (acc : FmtAcc) :
    (formatDiffStep opts p lv rv acc).changedPaths
      = acc.changedPaths ++ (if pathChanged lv rv then [p] else []) := by
  rcases lv with _ | a <;> rcases rv with _ | b <;>
    simp only [formatDiffStep, pathChanged]
  · simp
  · cases stepEmit opts p none (some b) .added (!(shouldPrintPatch p (DiffOptions.text opts)))
      <;> (repeat' split) <;> simp_all
  · cases stepEmit opts p (some a) none .deleted (!(shouldPrintPatch p (DiffOptions.text opts)))
      <;> (repeat' split) <;> simp_all
  · by_cases hid : areIdentical a b = true
    · simp [hid]
    · simp only [hid]
      cases stepEmit opts p (some a) (some b) .modified
          (!(shouldPrintPatch p (DiffOptions.text opts)))
        <;> (repeat' split) <;> simp_all

theorem formatDiffStep_outputParts (opts : DiffOptions) (p : String)
    (lv rv : Option Bytes) (acc : FmtAcc) :
    (formatDiffStep opts p lv rv acc).outputParts
      = acc.outputParts ++ (formatDiffStep opts p lv rv emptyAcc).outputParts := by
  rcases lv with _ | a <;> rcases rv with _ | b <;>
    simp only [formatDiffStep, emptyAcc]
  · simp
  · cases stepEmit opts p none (some b) .added (!(shouldPrintPatch p (DiffOptions.text opts)))
      <;> (repeat' split) <;> simp_all
  · cases stepEmit opts p (some a) none .deleted (!(shouldPrintPatch p (DiffOptions.text opts)))
      <;> (repeat' split) <;> simp_all
  · by_cases hid : areIdentical a b = true
    · simp [hid]
    · simp only [hid]
      cases stepEmit opts p (some a) (some b) .modified
          (!(shouldPrintPatch p (DiffOptions.text opts)))
        <;> (repeat' split) <;> simp_all

theorem formatDiffStep_filesAdded (opts : DiffOptions) (p : String)
    (lv rv : Option Bytes) (acc : FmtAcc) :
    (formatDiffStep opts p lv rv acc).filesAdded
      = acc.filesAdded + (if lv.isNone && rv.isSome then 1 else 0) := by
  rcases lv with _ | a <;> rcases rv with _ | b <;>
    simp only [formatDiffStep]
  · simp
  · cases stepEmit opts p none (some b) .added (!(shouldPrintPatch p (DiffOptions.text opts)))
      <;> (repeat' split) <;> simp_all
  · cases stepEmit opts p (some a) none .deleted (!(shouldPrintPatch p (DiffOptions.text opts)))
      <;> (repeat' split) <;> simp_all
  · by_cases hid : areIdentical a b = true
    · simp [hid]
    · simp only [hid]
      cases stepEmit opts p (some a) (some b) .modified
          (!(shouldPrintPatch p (DiffOptions.text opts)))
        <;> (repeat' split) <;> simp_all

theorem formatDiffStep_filesDeleted (opts : DiffOptions) (p : String)
    (lv rv : Option Bytes) (acc : FmtAcc) :
    (formatDiffStep opts p lv rv acc).filesDeleted
      = acc.filesDeleted + (if lv.isSome && rv.isNone then 1 else 0) := by
  rcases lv with _ | a <;> rcases rv with _ | b <;>
    simp only [formatDiffStep]
  · simp
  · cases stepEmit opts p none (some b) .added (!(shouldPrintPatch p (DiffOptions.text opts)))
      <;> (repeat' split) <;> simp_all
  · cases stepEmit opts p (some a) none .deleted (!(shouldPrintPatch p (DiffOptions.text opts)))
      <;> (repeat' split) <;> simp_all
  · by_cases hid : areIdentical a b = true
    · simp [hid]
    · simp only [hid]
      cases stepEmit opts p (some a) (some b) .modified
          (!(shouldPrintPatch p (DiffOptions.text opts)))
        <;> (repeat' split) <;> simp_all

theorem formatDiffStep_parts_le_one (opts : DiffOptions) (p : String)
    (lv rv : Option Bytes) :
    (formatDiffStep opts p lv rv emptyAcc).outputParts.length ≤ 1 := by
  rcases lv with _ | a <;> rcases rv with _ | b <;>
    simp only [formatDiffStep, emptyAcc]
  · simp
  · cases stepEmit opts p none (some b) .added (!(shouldPrintPatch p (DiffOptions.text opts)))
      <;> (repeat' split) <;> simp_all
  · cases stepEmit opts p (some a) none .deleted (!(shouldPrintPatch p (DiffOptions.text opts)))
      <;> (repeat' split) <;> simp_all
  · by_cases hid : areIdentical a b = true
    · simp [hid]
    · simp only [hid]
      cases stepEmit opts p (some a) (some b) .modified
          (!(shouldPrintPatch p (DiffOptions.text opts)))
        <;> (repeat' split) <;> simp_all

theorem formatDiffFold_changedPaths (opts : DiffOptions) (l r : FileMap) :
    ∀ (ps : List String) (acc : FmtAcc),
    (ps.foldl (fun a p => formatDiffStep opts p (jsMapGet l p) (jsMapGet r p) a)
        acc).changedPaths
      = acc.changedPaths
        ++ ps.filter (fun p => pathChanged (jsMapGet l p) (jsMapGet r p)) := by
  intro ps
  induction ps with
  | nil => intro acc; simp
  | cons p rest ih =>
    intro acc
    rw [List.foldl_cons, ih, formatDiffStep_changedPaths]
    by_cases hc : pathChanged (jsMapGet l p) (jsMapGet r p) = true
    · simp [hc]
    · simp [hc, Bool.eq_false_iff.mpr hc]

theorem formatDiffFold_outputParts (opts : DiffOptions) (l r : FileMap) :
    ∀ (ps : List String) (acc : FmtAcc),
    (ps.foldl (fun a p => formatDiffStep opts p (jsMapGet l p) (jsMapGet r p) a)
        acc).outputParts
      = acc.outputParts
        ++ ps.flatMap (fun p =>
          (formatDiffStep opts p (jsMapGet l p) (jsMapGet r p) emptyAcc).outputParts) := by
  intro ps
  induction ps with
  | nil => intro acc; simp
  | cons p rest ih =>
    intro acc
    rw [List.foldl_cons, ih, formatDiffStep_outputParts]
    simp

theorem formatDiffFold_filesAdded (opts : DiffOptions) (l r : FileMap) :
    ∀ (ps : List String) (acc : FmtAcc),
    (ps.foldl (fun a p => formatDiffStep opts p (jsMapGet l p) (jsMapGet r p) a)
        acc).filesAdded
      = acc.filesAdded
        + (ps.countP (fun p => (jsMapGet l p).isNone && (jsMapGet r p).isSome)) := by
  intro ps
  induction ps with
  | nil => intro acc; simp
  | cons p rest ih =>
    intro acc
    rw [List.foldl_cons, ih, formatDiffStep_filesAdded]
    rw [List.countP_cons]
    by_cases hc : ((jsMapGet l p).isNone && (jsMapGet r p).isSome) = true
    · simp [hc]
      omega
    · simp [hc, Bool.eq_false_iff.mpr hc]

theorem formatDiffFold_filesDeleted (opts : DiffOptions) (l r : FileMap) :
    ∀ (ps : List String) (acc : FmtAcc),
    (ps.foldl (fun a p => formatDiffStep opts p (jsMapGet l p) (jsMapGet r p) a)
        acc).filesDeleted
      = acc.filesDeleted
        + (ps.countP (fun p => (jsMapGet l p).isSome && (jsMapGet r p).isNone)) := by
  intro ps
  induction ps with
  | nil => intro acc; simp
  | cons p rest ih =>
    intro acc
    rw [List.foldl_cons, ih, formatDiffStep_filesDeleted]
    rw [List.countP_cons]
    by_cases hc : ((jsMapGet l p).isSome && (jsMapGet r p).isNone) = true
    · simp [hc]
      omega
    · simp [hc, Bool.eq_false_iff.mpr hc]

/-- C2 (amended): filesChanged counts every path of the union that is not
byte-identical on both sides, whether or not a block was emitted for
it. -/
theorem formatDiff_filesChanged (l r : FileMap) (opts : DiffOptions) :
    (formatDiff l r opts).filesChanged
      = ((sortedUnion l r).filter
          (fun p => pathChanged (jsMapGet l p) (jsMapGet r p))).length := by
  unfold formatDiff formatDiffSt
  rw [formatDiffGo_eq]
  simp only
  rw [formatDiffFold_changedPaths]
  simp

/-- C2 counterexample: a file differing only in CRLF versus LF is not
byte-identical, so it is counted in filesChanged, yet its patch has no
hunks and no block is emitted (the output is empty), refuting the claim
that filesChanged counts only paths whose block was emitted. -/
theorem formatDiff_zero_hunk_counted :
    formatDiff [("a.txt", [120, 13, 10])] [("a.txt", [120, 10])] {}
      = { output := "", filesChanged := 1, filesAdded := 0, filesDeleted := 0 } := by
  decide

theorem areIdentical_refl (a : Bytes) : areIdentical a a = true := by
  unfold areIdentical
  rw [if_pos rfl]
  induction a with
  | nil => rfl
  | cons x xs ih => simp [bytesEqAux, ih]

theorem formatDiffStep_noop (opts : DiffOptions) (p : String) {a b : Bytes}
    (hid : areIdentical a b = true) (acc : FmtAcc) :
    formatDiffStep opts p (some a) (some b) acc = acc := by
  simp [formatDiffStep, hid]

/-- C8: identity.  When the two maps bind the same key set to
byte-identical contents, formatDiff returns the empty output and zero
counts (and therefore the diff entry point returns the empty string once
both sides extract to such maps). -/
theorem formatDiff_identity (l r : FileMap) (opts : DiffOptions)
    (hkeys : ∀ p : String, (jsMapGet l p).isSome = (jsMapGet r p).isSome)
    (hsame : ∀ (p : String) (a b : Bytes), jsMapGet l p = some a →
      jsMapGet r p = some b → areIdentical a b = true) :
    formatDiff l r opts
      = { output := "", filesChanged := 0, filesAdded := 0, filesDeleted := 0 } := by
  have hnc : ∀ p ∈ sortedUnion l r,
      pathChanged (jsMapGet l p) (jsMapGet r p) = false := by
    intro p hp
    have hs := mem_sortedUnion_isSome hp
    have hboth : (jsMapGet l p).isSome = true ∧ (jsMapGet r p).isSome = true := by
      rcases hs with h1 | h1
      · exact ⟨h1, (hkeys p) ▸ h1⟩
      · exact ⟨(hkeys p).symm ▸ h1, h1⟩
    obtain ⟨a, ha⟩ := Option.isSome_iff_exists.mp hboth.1
    obtain ⟨b, hb⟩ := Option.isSome_iff_exists.mp hboth.2
    have hid := hsame p a b ha hb
    rw [ha, hb]
    simp [pathChanged, hid]
  have hfilter : (sortedUnion l r).filter
      (fun p => pathChanged (jsMapGet l p) (jsMapGet r p)) = [] := by
    rw [List.filter_eq_nil_iff]
    intro p hp
    rw [hnc p hp]
    simp
  have hparts : (sortedUnion l r).flatMap (fun p =>
      (formatDiffStep opts p (jsMapGet l p) (jsMapGet r p) emptyAcc).outputParts) = [] := by
    rw [List.flatMap_eq_nil_iff]
    intro p hp
    have hthis := hnc p hp
    cases ha : jsMapGet l p with
    | none =>
      cases hb : jsMapGet r p with
      | none => rfl
      | some b => rw [ha, hb] at hthis; simp [pathChanged] at hthis
    | some a =>
      cases hb : jsMapGet r p with
      | none => rw [ha, hb] at hthis; simp [pathChanged] at hthis
      | some b =>
        rw [ha, hb] at hthis
        simp only [pathChanged] at hthis
        have hid : areIdentical a b = true := by simpa using hthis
        rw [formatDiffStep_noop opts p hid]
        rfl
  have hca : (sortedUnion l r).countP
      (fun p => (jsMapGet l p).isNone && (jsMapGet r p).isSome) = 0 := by
    rw [List.countP_eq_zero]
    intro p hp
    have hthis := hnc p hp
    cases ha : jsMapGet l p with
    | some a => simp
    | none =>
      cases hb : jsMapGet r p with
      | none => simp
      | some b => rw [ha, hb] at hthis; simp [pathChanged] at hthis
  have hcd : (sortedUnion l r).countP
      (fun p => (jsMapGet l p).isSome && (jsMapGet r p).isNone) = 0 := by
    rw [List.countP_eq_zero]
    intro p hp
    have hthis := hnc p hp
    cases hb : jsMapGet r p with
    | some b => simp
    | none =>
      cases ha : jsMapGet l p with
      | none => simp
      | some a => rw [ha, hb] at hthis; simp [pathChanged] at hthis
  unfold formatDiff formatDiffSt
  rw [formatDiffGo_eq]
  simp only
  rw [formatDiffFold_changedPaths, formatDiffFold_outputParts,
    formatDiffFold_filesAdded, formatDiffFold_filesDeleted]
  rw [hfilter, hparts, hca, hcd]
  simp only [emptyAcc, List.append_nil, Nat.add_zero, List.length_nil]
  cases hno : DiffOptions.nameOnly opts with
  | false => simp [hno, jsJoin]
  | true => simp [hno, formatNameOnly]

/-- C8 witness: two maps with equal keys and byte-identical contents. -/
theorem formatDiff_identity_witness :
    formatDiff [("index.js", [99, 120, 10]), ("package.json", [123, 125, 10])]
        [("index.js", [99, 120, 10]), ("package.json", [123, 125, 10])] {}
      = { output := "", filesChanged := 0, filesAdded := 0, filesDeleted := 0 } := by
  apply formatDiff_identity
  · intro p
    rfl
  · intro p a b ha hb
    rw [ha] at hb
    injection hb with hab
    rw [hab]
    exact areIdentical_refl b

/-- C1: evaluation of the DiffError constructor at the input of spec
scenario 8.  The in-loop URL-userinfo pattern rewrites the userinfo before
the structure-preserving post-pass can run, so the message becomes
"Failed https: [REDACTED]h/pkg.tgz" and does not contain the
URL-structured redaction the spec promises. -/
theorem diffError_userinfo_structure_lost :
    (mkDiffError ErrorPhase.FETCH "Failed https://u:p@h/pkg.tgz").message
      = "Failed https: [REDACTED]h/pkg.tgz" ∧
    strIncludes (mkDiffError ErrorPhase.FETCH "Failed https://u:p@h/pkg.tgz").message
      "://[REDACTED]:[REDACTED]@h" = false := by
  constructor
  · decide
  · decide

theorem mem_dedupAux_of_mem : ∀ {l seen : List String} {y : String},
    y ∈ l → y ∈ dedupAux l seen ∨ seen.contains y = true := by
  intro l
  induction l with
  | nil => intro seen y h; simp at h
  | cons x rest ih =>
    intro seen y h
    rw [dedupAux]
    split
    · rename_i hxs
      rcases List.mem_cons.mp h with rfl | h2
      · exact Or.inr hxs
      · exact ih h2
    · rcases List.mem_cons.mp h with rfl | h2
      · exact Or.inl (List.mem_cons_self _ _)
      · rcases @ih (x :: seen) y h2 with h3 | h3
        · exact Or.inl (List.mem_cons_of_mem x h3)
        · rcases (by simpa using h3 : y = x ∨ seen.contains y = true) with rfl | h4
          · exact Or.inl (List.mem_cons_self _ _)
          · exact Or.inr h4

theorem mem_sortedUnion_iff {l r : FileMap} {p : String} :
    p ∈ sortedUnion l r ↔ (p ∈ jsMapKeys l ∨ p ∈ jsMapKeys r) := by
  constructor
  · intro h
    unfold sortedUnion at h
    have h2 := (sortJS_perm _).mem_iff.mp h
    exact List.mem_append.mp (mem_dedupAux h2)
  · intro h
    unfold sortedUnion jsSetDedup
    apply (sortJS_perm _).mem_iff.mpr
    have h0 : p ∈ jsMapKeys l ++ jsMapKeys r := List.mem_append.mpr h
    rcases mem_dedupAux_of_mem h0 with h1 | h1
    · exact h1
    · simp at h1

/-- C5 (amended): the path sequence of computeTreeDiff and the block
order of formatDiff both follow the sorted union of the two key sets: it
is duplicate-free, contains exactly the keys present in either map, is
strictly ascending in the JS string order (UTF-16 code-unit
lexicographic, not byte lexicographic), and in non-name-only mode the
output is the newline-join of the per-path blocks in exactly that path
order. -/
theorem treeDiff_format_path_order (l r : FileMap) (opts : DiffOptions)
    (hname : DiffOptions.nameOnly opts = false) :
    (computeTreeDiff l r opts).map FileDiff.path = sortedUnion l r
    ∧ (sortedUnion l r).Nodup
    ∧ (∀ p : String, p ∈ sortedUnion l r ↔ (p ∈ jsMapKeys l ∨ p ∈ jsMapKeys r))
    ∧ List.Pairwise (fun a b => jsStrLt a b = true) (sortedUnion l r)
    ∧ (formatDiff l r opts).output
        = jsJoin "\n" ((sortedUnion l r).flatMap (fun p =>
            (formatDiffStep opts p (jsMapGet l p) (jsMapGet r p) emptyAcc).outputParts)) := by
  refine ⟨computeTreeDiff_paths l r opts, sortedUnion_nodup l r,
    fun p => mem_sortedUnion_iff, sortedUnion_pairwise_lt l r, ?_⟩
  unfold formatDiff formatDiffSt
  rw [formatDiffGo_eq]
  simp only
  rw [formatDiffFold_outputParts]
  simp [hname]

/-- C5 witness: the ordering facts evaluated at two concrete one-file
maps with the default options. -/
theorem treeDiff_format_path_order_witness :
    DiffOptions.nameOnly {} = false
    ∧ (computeTreeDiff [("b", [49])] [("a", [50])] {}).map FileDiff.path
        = sortedUnion [("b", [49])] [("a", [50])] :=
  ⟨rfl, (treeDiff_format_path_order [("b", [49])] [("a", [50])] {} rfl).1⟩

/-- C5 counterexample: with one key U+10000 and one key U+FFFF the path
sequence is the UTF-16 code-unit order, U+10000 before U+FFFF, while the
byte-lexicographic order over the UTF-8 path bytes is the strict
reverse, refuting the byte-order part of the claim. -/
theorem treeDiff_byte_order_counterexample :
    ((computeTreeDiff [(⟨[Char.ofNat 65536]⟩, [49])] [(⟨[Char.ofNat 65535]⟩, [50])]
        {}).map FileDiff.path
      = [⟨[Char.ofNat 65536]⟩, ⟨[Char.ofNat 65535]⟩])
    ∧ byteStrLt ⟨[Char.ofNat 65535]⟩ ⟨[Char.ofNat 65536]⟩ = true
    ∧ byteStrLt ⟨[Char.ofNat 65536]⟩ ⟨[Char.ofNat 65535]⟩ = false := by
  refine ⟨?_, by decide, by decide⟩
  rw [computeTreeDiff_paths]
  decide

end Difftar
